import Mathlib

/-!
Verification development for the snowball roller (`src/roller.py`).

The embedding models the `Roller` class as a pure state machine:

* YAML dictionaries (`meta.yml` documents, config attribute maps) become
  `Dict := String → Option Val`, where `Val.date d` stands for a value that is
  a valid ISO date string (so `date.fromisoformat` succeeds exactly on it,
  with `d` counting days) and `Val.str` stands for any other string value.
* Python `dict.update` becomes `dictUpdate` (new keys win, the rest kept).
* The filesystem is part of the state: per-symbol `meta.yml` files
  (`symMeta`), per-day parquet slices (`slices`), symbol directories
  (`dirs`), and the aggregate `storage/meta.yml` document (`diskAgg`);
  `agg` is the in-memory `self.meta`.
* `yf.download` becomes an abstract `Provider`; `pandas_market_calendars`
  becomes an abstract `Calendar` (exchange name and date to "is a session").
  A provider row carries its calendar date and an `ok` flag telling whether
  `dropna` keeps it.
* Python exceptions become an `Err` value carried in the result; a raised
  exception stops execution but the side effects performed so far remain,
  so operations return the reached state, the emitted event trace and an
  optional error.  `Err.emptyDataMin` models the `ValueError` raised by
  `data1.index.date.min()` on an empty index (there is no dedicated
  empty-ingestion exception class in the source).
* Every provider call emits an `Ev.fetch` event recording the ticker list
  and the half-open date range, mirroring the exact `yf.download` calls the
  source makes; slice and per-symbol-meta writes emit events too.
-/

namespace Snowball

abbrev Date := Int
abbrev Sym := String
abbrev Cat := String

/-- A YAML scalar: either a valid ISO-date string (represented by its day
number) or any other string. -/
inductive Val where
  | str (s : String)
  | date (d : Date)
deriving DecidableEq

/-- A YAML mapping / Python dict, by its lookup function. -/
abbrev Dict := String → Option Val

/-- Python `old.update(upd)` viewed through lookups: keys of `upd` win. -/
def dictUpdate (old upd : Dict) : Dict := fun k =>
  match upd k with
  | some v => some v
  | none => old k

/-- `date.fromisoformat(m.get(k))`: succeeds only when the stored value is a
valid ISO date string. -/
def getDate (m : Dict) (k : String) : Option Date :=
  match m k with
  | some (.date d) => some d
  | _ => none

/-- One provider row: its calendar date, and whether it survives `dropna`. -/
structure Row where
  day : Date
  ok : Bool
deriving DecidableEq

/-- `data.dropna()`. -/
def dropna (rows : List Row) : List Row := rows.filter (·.ok)

/-- `yf.download` for one symbol over a half-open date range. -/
abbrev Provider := Sym → Date → Date → List Row

/-- `mcal.get_calendar(exchange).valid_days(d, d)` nonemptiness. -/
abbrev Calendar := String → Date → Bool

/-- The aggregate `self.meta`: top-level stamps plus category → symbol →
coverage record. -/
structure Agg where
  top : Dict
  cats : Cat → Sym → Option Dict

/-- The whole `Roller` state: configuration plus the storage filesystem. -/
structure St where
  categories : List Cat
  watchlist : Cat → Sym → Option Dict
  symbolsList : List Sym
  dirs : Cat → Sym → Bool
  symMeta : Cat → Sym → Option Dict
  slices : Cat → Sym → Date → Option (List Row)
  agg : Agg
  diskAgg : Option Agg

/-- The exceptions the source can raise on the modelled paths. -/
inductive Err where
  | symbolNotInCategory (s : Sym)
  | exchangeMissing (s : Sym)
  | badDateValue (s : Sym)
  | emptyDataMin
deriving DecidableEq

/-- Observable actions: provider calls (ticker list and half-open range),
slice writes, per-symbol meta-file writes. -/
inductive Ev where
  | fetch (syms : List Sym) (lo hi : Date)
  | writeSlice (c : Cat) (s : Sym) (d : Date)
  | writeMeta (c : Cat) (s : Sym)
deriving DecidableEq

/-- Result of an engine operation: reached state, event trace, optional
uncaught exception. -/
structure Out where
  st : St
  evs : List Ev
  err : Option Err

/-- `Roller._get_symbol_category`. -/
def getSymbolCategory (st : St) (s : Sym) : Option Cat :=
  st.categories.find? (fun c => (st.watchlist c s).isSome)

/-- `Roller._is_trading_day_for_symbol`. -/
def isTradingDayForSymbol (st : St) (cal : Calendar) (s : Sym) (d : Date) :
    Except Err Bool :=
  match getSymbolCategory st s with
  | none => .error (.symbolNotInCategory s)
  | some c =>
    match st.watchlist c s with
    | none => .error (.symbolNotInCategory s)
    | some attrs =>
      match attrs "exchange" with
      | some (.str ex) =>
        if ex = "" then .error (.exchangeMissing s) else .ok (cal ex d)
      | _ => .error (.exchangeMissing s)

/-- The dict `{"symbol": s, "last_updated": now}` that
`_update_symbol_meta_file` builds before merging `entry` into it. -/
def baseRec (s : Sym) (now : String) : Dict := fun k =>
  if k = "symbol" then some (.str s)
  else if k = "last_updated" then some (.str now)
  else none

/-- `existing_meta.update(meta)` when the file exists, else just `meta`. -/
def mergeInto (existing : Option Dict) (meta : Dict) : Dict :=
  match existing with
  | some e => dictUpdate e meta
  | none => meta

/-- `Roller._update_symbol_meta_file`: build `{"symbol": s, "last_updated":
now}`, update it with `entry`, then merge into the existing on-disk record if
any, and write the file. -/
def updateSymbolMetaFile (st : St) (s : Sym) (entry : Dict) (now : String) :
    Except Err St :=
  match getSymbolCategory st s with
  | none => .error (.symbolNotInCategory s)
  | some c =>
    .ok { st with
          symMeta := fun c2 s2 =>
            if c2 = c ∧ s2 = s then
              some (mergeInto (st.symMeta c s) (dictUpdate (baseRec s now) entry))
            else st.symMeta c2 s2 }

/-- `Roller._scan_storage_meta`: for every category directory and every symbol
directory in it holding a `meta.yml`, copy that record into the aggregate;
all other aggregate entries are left as they are. -/
def scanStorageMeta (st : St) : St :=
  { st with
    agg := { st.agg with
      cats := fun c s =>
        if c ∈ st.categories ∧ st.dirs c s = true then
          match st.symMeta c s with
          | some r => some r
          | none => st.agg.cats c s
        else st.agg.cats c s } }

/-- `Roller._save_storage_meta`. -/
def saveStorageMeta (st : St) : St := { st with diskAgg := some st.agg }

/-- `Roller._update_storage_meta` (all call sites pass no entry): stamp
`last_updated`, rescan, save. -/
def updateStorageMeta (st : St) (now : String) : St :=
  let st1 := { st with
    agg := { st.agg with
      top := dictUpdate st.agg.top
        (fun k => if k = "last_updated" then some (.str now) else none) } }
  saveStorageMeta (scanStorageMeta st1)

/-- `Roller._load_storage_meta`: read `storage/meta.yml` as-is if present;
otherwise initialize fresh stamps, rescan the per-symbol records and save. -/
def loadStorageMeta (st : St) (now : String) : St :=
  match st.diskAgg with
  | some a => { st with agg := a }
  | none =>
    let st1 := { st with
      agg := { top := fun k =>
                 if k = "created_at" ∨ k = "last_updated" then some (.str now)
                 else none,
               cats := fun _ _ => none } }
    saveStorageMeta (scanStorageMeta st1)

/-- The four backfill window openings: `today - 28` then three steps of 8
days; each window is fetched over `[w, w + 8)`. -/
def backfillWindows (today : Date) : List Date :=
  [today - 28, today - 20, today - 12, today - 4]

/-- All rows `_download_all_available_1m_ohlcv_for_symbol` concatenates. -/
def backfillRows (prov : Provider) (s : Sym) (today : Date) : List Row :=
  ((backfillWindows today).map (fun w => prov s w (w + 8))).flatten

/-- Smallest element of a list of dates, `none` when empty
(`data1.index.date.min()` raises exactly when the index is empty). -/
def listMin : List Date → Option Date
  | [] => none
  | d :: rest =>
    some (match listMin rest with
          | some m => min d m
          | none => d)

/-- Largest element of a list of dates, `none` when empty. -/
def listMax : List Date → Option Date
  | [] => none
  | d :: rest =>
    some (match listMax rest with
          | some m => max d m
          | none => d)

/-- The earliest-date computation of the backfill: the fetched minimum,
lowered by the prior in-memory record's `earliest_date` when a record exists
(`date.fromisoformat(None)` raising when the record lacks the key). -/
def earliestOf (prior : Option Dict) (mn : Date) (s : Sym) : Except Err Date :=
  match prior with
  | some m =>
    match getDate m "earliest_date" with
    | some pe => .ok (min mn pe)
    | none => .error (.badDateValue s)
  | none => .ok mn

/-- The meta-file entry the backfill writes: `{"earliest_date": e,
"latest_date": mx, **config_attrs}` (dict-literal semantics: the unpacked
config attributes override the two dates on key collision). -/
def backfillEntry (attrs : Dict) (e mx : Date) : Dict := fun k =>
  match attrs k with
  | some v => some v
  | none =>
    if k = "earliest_date" then some (.date e)
    else if k = "latest_date" then some (.date mx)
    else none

/-- `Roller._download_all_available_1m_ohlcv_for_symbol`: fetch the four
windows, create the symbol directory (`_create_symbol_dir`, inlined — its
`ValueError` is the `none` category branch), take min/max of all row dates
(raising on an empty concatenation), write one slice per distinct date
present (overwriting), lower the earliest date by the in-memory prior record
if one exists, and write the per-symbol meta file with the config
attributes.  `self.meta` and `self.config` are untouched between the fetches
and the lookups, so those lookups read the original state's fields. -/
def downloadAll (st : St) (prov : Provider) (s : Sym) (today : Date)
    (now : String) : Out :=
  let fetchEvs := (backfillWindows today).map (fun w => Ev.fetch [s] w (w + 8))
  let rows := backfillRows prov s today
  match getSymbolCategory st s with
  | none => { st := st, evs := fetchEvs, err := some (.symbolNotInCategory s) }
  | some c =>
    let st1 := { st with
      dirs := fun c2 s2 => if c2 = c ∧ s2 = s then true else st.dirs c2 s2 }
    match listMin (rows.map (·.day)), listMax (rows.map (·.day)) with
    | some mn, some mx =>
      let st2 := { st1 with
        slices := fun c2 s2 d2 =>
          if c2 = c ∧ s2 = s ∧ d2 ∈ rows.map (·.day) then
            some (rows.filter (·.day = d2))
          else st1.slices c2 s2 d2 }
      let sliceEvs := ((rows.map (·.day)).dedup).map (fun d2 => Ev.writeSlice c s d2)
      match earliestOf (st.agg.cats c s) mn s with
      | .error e => { st := st2, evs := fetchEvs ++ sliceEvs, err := some e }
      | .ok e =>
        match st.watchlist c s with
        | none =>
          { st := st2, evs := fetchEvs ++ sliceEvs,
            err := some (.symbolNotInCategory s) }
        | some attrs =>
          match updateSymbolMetaFile st2 s (backfillEntry attrs e mx) now with
          | .error e2 =>
            { st := st2, evs := fetchEvs ++ sliceEvs, err := some e2 }
          | .ok st3 =>
            { st := st3, evs := fetchEvs ++ sliceEvs ++ [Ev.writeMeta c s],
              err := none }
    | _, _ => { st := st1, evs := fetchEvs, err := some .emptyDataMin }

/-- Whether `roll`'s first loop treats `s` as an already-known symbol:
`symbol in self.meta.get(category, {})` (a `None` category looks the symbol
up in the empty dict). -/
def isExisting (st : St) (s : Sym) : Bool :=
  match getSymbolCategory st s with
  | some c => (st.agg.cats c s).isSome
  | none => false

/-- The first loop of `roll`: backfill each new symbol as it is met, collect
the already-known ones in order; an exception aborts the whole loop. -/
def rollClassify (prov : Provider) (today : Date) (now : String) :
    St → List Sym → St × List Ev × Option Err × List Sym
  | st, [] => (st, [], none, [])
  | st, s :: rest =>
    if isExisting st s then
      let r := rollClassify prov today now st rest
      (r.1, r.2.1, r.2.2.1, s :: r.2.2.2)
    else
      let o := downloadAll st prov s today now
      match o.err with
      | some e => (o.st, o.evs, some e, [])
      | none =>
        let r := rollClassify prov today now o.st rest
        (r.1, o.evs ++ r.2.1, r.2.2.1, r.2.2.2)

/-- The trading-day filter of `roll`: keep the symbols whose exchange had a
session on `d`; a lookup failure raises. -/
def tradingFilter (st : St) (cal : Calendar) (d : Date) :
    List Sym → Except Err (List Sym)
  | [] => .ok []
  | s :: rest =>
    match isTradingDayForSymbol st cal s d with
    | .error e => .error e
    | .ok true => (tradingFilter st cal d rest).map (s :: ·)
    | .ok false => tradingFilter st cal d rest

/-- One symbol of the saving loop of `roll`: skip the symbol if its batch
rows vanish under `dropna`, otherwise write the slice for the target date and
then update its meta file with `latest_date = d` (the category lookup raising
when the symbol has no category). -/
def rollSaveStep (prov : Provider) (d : Date) (now : String) (st : St)
    (s : Sym) : St × List Ev × Option Err :=
  let rows := prov s d (d + 1)
  if (dropna rows).isEmpty then (st, [], none)
  else
    match getSymbolCategory st s with
    | none => (st, [], some (.symbolNotInCategory s))
    | some c =>
      let st1 := { st with
        slices := fun c2 s2 d2 =>
          if c2 = c ∧ s2 = s ∧ d2 = d then some rows
          else st.slices c2 s2 d2 }
      match updateSymbolMetaFile st1 s
          (fun k => if k = "latest_date" then some (.date d) else none) now with
      | .error e => (st1, [Ev.writeSlice c s d], some e)
      | .ok st2 => (st2, [Ev.writeSlice c s d, Ev.writeMeta c s], none)

/-- The saving loop of `roll`: process the fetched symbols in order; an
exception aborts the loop. -/
def rollSave (prov : Provider) (d : Date) (now : String) :
    St → List Sym → St × List Ev × Option Err
  | st, [] => (st, [], none)
  | st, s :: rest =>
    let r := rollSaveStep prov d now st s
    match r.2.2 with
    | some e => (r.1, r.2.1, some e)
    | none =>
      let r2 := rollSave prov d now r.1 rest
      (r2.1, r.2.1 ++ r2.2.1, r2.2.2)

/-- `Roller.roll`: classify (backfilling new symbols inline), stop early when
no known symbol remains, filter by trading day for `today - 1`, issue the one
batched fetch, save per-symbol results, and update the aggregate. -/
def roll (st : St) (prov : Provider) (cal : Calendar) (today : Date)
    (now : String) : Out :=
  let r1 := rollClassify prov today now st st.symbolsList
  match r1.2.2.1 with
  | some e => { st := r1.1, evs := r1.2.1, err := some e }
  | none =>
    if r1.2.2.2.isEmpty then
      { st := updateStorageMeta r1.1 now, evs := r1.2.1, err := none }
    else
      let d := today - 1
      match tradingFilter r1.1 cal d r1.2.2.2 with
      | .error e => { st := r1.1, evs := r1.2.1, err := some e }
      | .ok trading =>
        let fetchEv := Ev.fetch trading d (d + 1)
        let r2 := rollSave prov d now r1.1 trading
        match r2.2.2 with
        | some e =>
          { st := r2.1, evs := r1.2.1 ++ [fetchEv] ++ r2.2.1, err := some e }
        | none =>
          { st := updateStorageMeta r2.1 now,
            evs := r1.2.1 ++ [fetchEv] ++ r2.2.1, err := none }

/-- One symbol's processing inside `Roller.fill_date`. -/
def fillStep (prov : Provider) (cal : Calendar) (target today : Date)
    (now : String) (st : St) (s : Sym) : St × List Ev × Option Err :=
  match getSymbolCategory st s with
  | none =>
    let o := downloadAll st prov s today now
    (o.st, o.evs, o.err)
  | some c =>
    match st.agg.cats c s with
    | none =>
      let o := downloadAll st prov s today now
      (o.st, o.evs, o.err)
    | some m =>
      match getDate m "earliest_date", getDate m "latest_date" with
      | some pe, some pl =>
        if target < pe ∨ target > pl then (st, [], none)
        else if (st.slices c s target).isSome then (st, [], none)
        else
          match isTradingDayForSymbol st cal s target with
          | .error e => (st, [], some e)
          | .ok false => (st, [], none)
          | .ok true =>
            let rows := prov s target (target + 1)
            let fe := Ev.fetch [s] target (target + 1)
            if (dropna rows).isEmpty then (st, [fe], none)
            else
              ({ st with
                 slices := fun c2 s2 d2 =>
                   if c2 = c ∧ s2 = s ∧ d2 = target then some rows
                   else st.slices c2 s2 d2 },
               [fe, Ev.writeSlice c s target], none)
      | _, _ => (st, [], some (.badDateValue s))

/-- The symbol loop of `Roller.fill_date`. -/
def fillLoop (prov : Provider) (cal : Calendar) (target today : Date)
    (now : String) : St → List Sym → St × List Ev × Option Err
  | st, [] => (st, [], none)
  | st, s :: rest =>
    let r := fillStep prov cal target today now st s
    match r.2.2 with
    | some e => (r.1, r.2.1, some e)
    | none =>
      let r2 := fillLoop prov cal target today now r.1 rest
      (r2.1, r.2.1 ++ r2.2.1, r2.2.2)

/-- `Roller.fill_date`: process every watchlist symbol, then update the
aggregate (skipped when an exception aborted the loop). -/
def fillDate (st : St) (prov : Provider) (cal : Calendar) (target today : Date)
    (now : String) : Out :=
  let r := fillLoop prov cal target today now st st.symbolsList
  match r.2.2 with
  | some e => { st := r.1, evs := r.2.1, err := some e }
  | none => { st := updateStorageMeta r.1 now, evs := r.2.1, err := none }

/-- Number of slice writes for one (category, symbol, date) key in a trace. -/
def countW (evs : List Ev) (c : Cat) (s : Sym) (d : Date) : Nat :=
  evs.count (Ev.writeSlice c s d)

/-! ### Concrete scenario states used by witnesses and counterexamples -/

/-- Watchlist attributes of a symbol listed on the NYSE. -/
def exAttrs : Dict := fun k => if k = "exchange" then some (.str "NYSE") else none

/-- A persisted coverage record for symbol `A` covering days 0 to 100. -/
def exRec : Dict := fun k =>
  if k = "symbol" then some (.str "A")
  else if k = "earliest_date" then some (.date 0)
  else if k = "latest_date" then some (.date 100)
  else if k = "exchange" then some (.str "NYSE")
  else none

/-- A stale record with earliest day 1, differing from `exRec`. -/
def exRecStale : Dict := fun k =>
  if k = "symbol" then some (.str "A")
  else if k = "earliest_date" then some (.date 1)
  else none

/-- One watchlist symbol `A` in category `c`, already covered (record on disk
and in the aggregate). -/
def stOne : St where
  categories := ["c"]
  watchlist := fun c s => if c = "c" ∧ s = "A" then some exAttrs else none
  symbolsList := ["A"]
  dirs := fun c s => if c = "c" ∧ s = "A" then true else false
  symMeta := fun c s => if c = "c" ∧ s = "A" then some exRec else none
  slices := fun _ _ _ => none
  agg := { top := fun _ => none,
           cats := fun c s => if c = "c" ∧ s = "A" then some exRec else none }
  diskAgg := none

/-- Two watchlist symbols `A` and `B`, neither ingested yet. -/
def stTwoNew : St where
  categories := ["c"]
  watchlist := fun c s =>
    if c = "c" ∧ (s = "A" ∨ s = "B") then some exAttrs else none
  symbolsList := ["A", "B"]
  dirs := fun _ _ => false
  symMeta := fun _ _ => none
  slices := fun _ _ _ => none
  agg := { top := fun _ => none, cats := fun _ _ => none }
  diskAgg := none

/-- A provider with no rows at all for `A` and one valid row per request for
any other symbol. -/
def provEmptyA : Provider := fun s a _ => if s = "A" then [] else [⟨a, true⟩]

/-- A provider returning one valid row, dated at the range opening. -/
def provOne : Provider := fun _ a _ => [⟨a, true⟩]

/-- A provider returning one valid row dated one day into the range. -/
def provLate : Provider := fun _ a _ => [⟨a + 1, true⟩]

/-- A provider returning no rows at all. -/
def provNone : Provider := fun _ _ _ => []

/-- A calendar on which every exchange has a session every day. -/
def calOpen : Calendar := fun _ _ => true

/-- A calendar on which no exchange ever has a session. -/
def calClosed : Calendar := fun _ _ => false

/-- A stale aggregate document carrying `exRecStale` for `A`. -/
def aggStale : Agg :=
  { top := fun _ => none,
    cats := fun c s => if c = "c" ∧ s = "A" then some exRecStale else none }

/-- `stOne`, but the aggregate document on disk is the stale `aggStale`. -/
def stStaleDisk : St := { stOne with diskAgg := some aggStale }

/-- `stOne`, but every per-symbol meta file is gone from disk while the
in-memory aggregate still lists `A`. -/
def stStaleAgg : St := { stOne with symMeta := fun _ _ => none }

/-- `stOne`, with an extra in-memory aggregate entry for a symbol `X` that
has no persisted record. -/
def stOneStale : St := { stOne with
  agg := { top := fun _ => none,
           cats := fun c s =>
             if c = "c" ∧ s = "A" then some exRec
             else if c = "c" ∧ s = "X" then some exRecStale
             else none } }

/-- Watchlist attributes of a symbol listed on exchange `X`. -/
def exAttrsX : Dict := fun k => if k = "exchange" then some (.str "X") else none

/-- Watchlist attributes of a symbol listed on exchange `Y`. -/
def exAttrsY : Dict := fun k => if k = "exchange" then some (.str "Y") else none

/-- A persisted coverage record for symbol `B` covering days 0 to 100. -/
def exRecB : Dict := fun k =>
  if k = "symbol" then some (.str "B")
  else if k = "earliest_date" then some (.date 0)
  else if k = "latest_date" then some (.date 100)
  else if k = "exchange" then some (.str "Y")
  else none

/-- Two covered watchlist symbols: `A` on exchange `X`, `B` on exchange
`Y`. -/
def stTwoEx : St where
  categories := ["c"]
  watchlist := fun c s =>
    if c = "c" then
      if s = "A" then some exAttrsX
      else if s = "B" then some exAttrsY
      else none
    else none
  symbolsList := ["A", "B"]
  dirs := fun c s => if c = "c" ∧ (s = "A" ∨ s = "B") then true else false
  symMeta := fun c s =>
    if c = "c" then
      if s = "A" then some exRec
      else if s = "B" then some exRecB
      else none
    else none
  slices := fun _ _ _ => none
  agg := { top := fun _ => none,
           cats := fun c s =>
             if c = "c" then
               if s = "A" then some exRec
               else if s = "B" then some exRecB
               else none
             else none }
  diskAgg := none

/-- A calendar on which only exchange `Y` has sessions. -/
def calOnlyY : Calendar := fun ex _ => if ex = "Y" then true else false

/-! ### Shared helper lemmas -/

/-- A persisted per-symbol record lands, verbatim, in the rescanned
aggregate. -/
theorem scan_cats_persisted (st : St) (c : Cat) (s : Sym) (r : Dict)
    (hmem : c ∈ st.categories) (hdir : st.dirs c s = true)
    (hrec : st.symMeta c s = some r) :
    (scanStorageMeta st).agg.cats c s = some r := by
  simp [scanStorageMeta, hmem, hdir, hrec]

/-- Rescanning leaves an aggregate entry alone when no per-symbol record is
persisted for it. -/
theorem scan_cats_stale (st : St) (c : Cat) (s : Sym)
    (hnone : st.symMeta c s = none) :
    (scanStorageMeta st).agg.cats c s = st.agg.cats c s := by
  simp only [scanStorageMeta]
  split
  · rw [hnone]
  · rfl

/-! ### C3 -/

/-- C3 counterexample: with a stale aggregate document on disk (earliest day
1 for `A`) while the persisted per-symbol record says day 0, loading returns
the stale value 1 — whereas a rescan of the very same storage yields 0.  So
the aggregate is NOT recomputed by rescanning at store load when an
aggregate document already exists, refuting the claim. -/
theorem load_skips_rescan_cex :
    ((loadStorageMeta stStaleDisk "t").agg.cats "c" "A").bind
        (fun m => getDate m "earliest_date") = some 1 ∧
    ((scanStorageMeta (loadStorageMeta stStaleDisk "t")).agg.cats "c" "A").bind
        (fun m => getDate m "earliest_date") = some 0 ∧
    ((loadStorageMeta stStaleDisk "t").agg.cats "c" "A").bind
        (fun m => getDate m "earliest_date") ≠
      ((scanStorageMeta (loadStorageMeta stStaleDisk "t")).agg.cats "c" "A").bind
        (fun m => getDate m "earliest_date") := by
  exact ⟨rfl, rfl, by decide⟩

/-- C3 (amended): at store load the aggregate is rescanned only when no
aggregate document exists on disk (an existing document is loaded as-is,
without rescan — see the counterexample); after every mutating operation
batch (`_update_storage_meta`) the aggregate is rescanned from the persisted
per-symbol records and persisted. -/
theorem load_and_update_rescan
    (st st2 : St) (now : String) (a : Agg) (c : Cat) (s : Sym) (r : Dict)
    (h1 : st.diskAgg = some a)
    (h2 : st2.diskAgg = none)
    (hmem2 : c ∈ st2.categories) (hdir2 : st2.dirs c s = true)
    (hrec2 : st2.symMeta c s = some r)
    (hmem : c ∈ st.categories) (hdir : st.dirs c s = true)
    (hrec : st.symMeta c s = some r) :
    (loadStorageMeta st now).agg = a ∧
    (loadStorageMeta st2 now).agg.cats c s = some r ∧
    (loadStorageMeta st2 now).diskAgg = some (loadStorageMeta st2 now).agg ∧
    (updateStorageMeta st now).agg.cats c s = some r ∧
    (updateStorageMeta st now).diskAgg = some (updateStorageMeta st now).agg := by
  refine ⟨?_, ?_, ?_, ?_, ?_⟩
  · simp [loadStorageMeta, h1]
  · simp only [loadStorageMeta, h2, saveStorageMeta]
    exact scan_cats_persisted _ c s r hmem2 hdir2 hrec2
  · simp [loadStorageMeta, h2, saveStorageMeta]
  · simp only [updateStorageMeta, saveStorageMeta]
    exact scan_cats_persisted _ c s r hmem hdir hrec
  · simp [updateStorageMeta, saveStorageMeta]

/-- C3 witness: the amended theorem applied to the concrete stale-disk state
and to `stOne` (which has no aggregate document). -/
theorem load_and_update_rescan_witness :
    (loadStorageMeta stStaleDisk "t").agg = aggStale ∧
    (loadStorageMeta stOne "t").agg.cats "c" "A" = some exRec ∧
    (loadStorageMeta stOne "t").diskAgg = some (loadStorageMeta stOne "t").agg ∧
    (updateStorageMeta stStaleDisk "t").agg.cats "c" "A" = some exRec ∧
    (updateStorageMeta stStaleDisk "t").diskAgg =
      some (updateStorageMeta stStaleDisk "t").agg :=
  load_and_update_rescan stStaleDisk stOne "t" aggStale "c" "A" exRec rfl rfl
    (by decide) rfl rfl (by decide) rfl rfl

/-! ### C9 -/

/-- C9 counterexample: `stStaleAgg` has an in-memory aggregate entry for `A`
but no persisted per-symbol record at all; rescanning keeps the stale entry
instead of removing it, so the aggregate does not exactly equal the persisted
records' contents, refuting the claim. -/
theorem rescan_keeps_stale_cex :
    ((scanStorageMeta stStaleAgg).agg.cats "c" "A").isSome = true ∧
    stStaleAgg.symMeta "c" "A" = none := ⟨rfl, rfl⟩

/-- C9 (amended): rescanning copies every persisted per-symbol record,
verbatim, into the aggregate under its category (overwriting any stale
in-memory value for it), but an in-memory entry for a symbol with no
persisted record is retained, not removed. -/
theorem rescan_exact_for_persisted
    (st : St) (c : Cat) (s : Sym) (r : Dict) (c2 : Cat) (s2 : Sym)
    (hmem : c ∈ st.categories) (hdir : st.dirs c s = true)
    (hrec : st.symMeta c s = some r)
    (hnone : st.symMeta c2 s2 = none) :
    (scanStorageMeta st).agg.cats c s = some r ∧
    (scanStorageMeta st).agg.cats c2 s2 = st.agg.cats c2 s2 :=
  ⟨scan_cats_persisted st c s r hmem hdir hrec, scan_cats_stale st c2 s2 hnone⟩

/-- C9 witness: the amended theorem applied to `stOneStale`, whose symbol `A`
is persisted while `X` only lives in the stale in-memory aggregate. -/
theorem rescan_exact_for_persisted_witness :
    (scanStorageMeta stOneStale).agg.cats "c" "A" = some exRec ∧
    (scanStorageMeta stOneStale).agg.cats "c" "X" =
      stOneStale.agg.cats "c" "X" :=
  rescan_exact_for_persisted stOneStale "c" "A" exRec "c" "X"
    (by decide) rfl rfl rfl

/-! ### C8 -/

/-- C8 (confirmed): updating a symbol's persisted coverage record merges the
partial entry shallowly with last-write-wins per key: a key absent from the
entry (other than the `last_updated` stamp) keeps its persisted value, a key
present in the entry takes the new value, and `last_updated` is re-stamped. -/
theorem coverage_update_merge
    (st : St) (s : Sym) (entry : Dict) (now : String) (c : Cat)
    (existing : Dict) (k k2 : String) (v : Val)
    (hc : getSymbolCategory st s = some c)
    (hex : st.symMeta c s = some existing)
    (hsym : existing "symbol" = some (.str s))
    (hk : entry k = none) (hkl : k ≠ "last_updated")
    (hk2 : entry k2 = some v)
    (hlu : entry "last_updated" = none) :
    ∃ st2, updateSymbolMetaFile st s entry now = .ok st2 ∧
      ∃ r, st2.symMeta c s = some r ∧
        r k = existing k ∧ r k2 = some v ∧
        r "last_updated" = some (.str now) := by
  refine ⟨_, by rw [updateSymbolMetaFile, hc], ?_⟩
  refine ⟨dictUpdate existing (dictUpdate (baseRec s now) entry),
    by simp [hex, mergeInto], ?_, ?_, ?_⟩
  · by_cases hks : k = "symbol"
    · subst hks
      simp [dictUpdate, baseRec, hk, hsym]
    · simp [dictUpdate, baseRec, hk, hks, hkl]
  · simp [dictUpdate, hk2]
  · simp [dictUpdate, baseRec, hlu]

/-- C8 witness: in `stOne`, updating `A` with `{latest_date: 7}` keeps the
untouched `earliest_date`, overwrites `latest_date` and re-stamps
`last_updated`. -/
theorem coverage_update_merge_witness :
    ∃ st2, updateSymbolMetaFile stOne "A"
        (fun kk => if kk = "latest_date" then some (.date 7) else none) "t2" =
        .ok st2 ∧
      ∃ r, st2.symMeta "c" "A" = some r ∧
        r "earliest_date" = exRec "earliest_date" ∧
        r "latest_date" = some (.date 7) ∧
        r "last_updated" = some (.str "t2") :=
  coverage_update_merge stOne "A"
    (fun kk => if kk = "latest_date" then some (.date 7) else none) "t2" "c"
    exRec "earliest_date" "latest_date" (.date 7) rfl rfl rfl rfl
    (by decide) rfl rfl

/-! ### C2 -/

/-- C2 counterexample: with one known symbol whose exchange is closed on the
target day, the remaining set after the trading-day filter is empty, yet
`roll` still issues the batched provider call (with an empty ticker list)
before persisting and returning — refuting "returns without issuing any
provider fetch". -/
theorem roll_no_trading_still_fetches_cex :
    Ev.fetch [] 99 100 ∈ (roll stOne provOne calClosed 100 "t").evs ∧
    (roll stOne provOne calClosed 100 "t").err = none := by
  exact ⟨by decide, rfl⟩

/-- C2 (amended): when every known symbol is dropped by the trading-day
filter, `roll` still issues the one batched provider call, with an empty
ticker list; it then processes nothing, persists the store state and
returns without error. -/
theorem roll_no_trading_behavior
    (st : St) (prov : Provider) (cal : Calendar) (today : Date) (now : String)
    (he : (rollClassify prov today now st st.symbolsList).2.2.1 = none)
    (hne : (rollClassify prov today now st st.symbolsList).2.2.2.isEmpty = false)
    (htf : tradingFilter (rollClassify prov today now st st.symbolsList).1 cal
        (today - 1) (rollClassify prov today now st st.symbolsList).2.2.2 =
        .ok []) :
    (roll st prov cal today now).err = none ∧
    (roll st prov cal today now).evs =
      (rollClassify prov today now st st.symbolsList).2.1 ++
        [Ev.fetch [] (today - 1) (today - 1 + 1)] ∧
    (roll st prov cal today now).st =
      updateStorageMeta (rollClassify prov today now st st.symbolsList).1 now := by
  simp only [roll, he, hne, htf, rollSave, Bool.false_eq_true, if_false,
    List.append_nil]
  exact ⟨trivial, trivial, trivial⟩

/-- C2 witness: the amended theorem at the concrete closed-calendar state. -/
theorem roll_no_trading_behavior_witness :
    (roll stOne provOne calClosed 100 "t").err = none ∧
    (roll stOne provOne calClosed 100 "t").evs =
      (rollClassify provOne 100 "t" stOne stOne.symbolsList).2.1 ++
        [Ev.fetch [] (100 - 1) (100 - 1 + 1)] ∧
    (roll stOne provOne calClosed 100 "t").st =
      updateStorageMeta (rollClassify provOne 100 "t" stOne stOne.symbolsList).1
        "t" :=
  roll_no_trading_behavior stOne provOne calClosed 100 "t" rfl rfl rfl

/-! ### C1 -/

/-- C1 counterexample: two never-ingested symbols `A` and `B`; the provider
has no rows for `A` in any window but rows for `B`.  `roll` dies on `A` with
the undefined-min error (there is no `EmptyIngestionError` in the source),
and `B` — whose own backfill would have succeeded — is never ingested: the
failure DOES abort the caller's iteration over other symbols, refuting the
claim. -/
theorem roll_empty_backfill_aborts_cex :
    (roll stTwoNew provEmptyA calOpen 100 "t").err = some .emptyDataMin ∧
    (roll stTwoNew provEmptyA calOpen 100 "t").st.symMeta "c" "A" = none ∧
    (roll stTwoNew provEmptyA calOpen 100 "t").st.symMeta "c" "B" = none ∧
    (downloadAll stTwoNew provEmptyA "B" 100 "t").err = none := by
  exact ⟨rfl, rfl, rfl, rfl⟩

/-- C1 (amended): when the provider returns zero rows across every backfill
window for a symbol, the backfill fails with the undefined-min error (not a
dedicated empty-ingestion exception naming the symbol), writes no coverage
record and no slice for it (a prior record is left untouched), and the
uncaught error propagates out of `roll`, aborting the iteration over the
remaining symbols, none of whose records are written either. -/
theorem backfill_empty_error_propagates
    (st : St) (prov : Provider) (cal : Calendar) (s : Sym) (rest : List Sym)
    (today : Date) (now : String) (c : Cat)
    (hc : getSymbolCategory st s = some c)
    (hempty : backfillRows prov s today = [])
    (hlist : st.symbolsList = s :: rest)
    (hnew : st.agg.cats c s = none) :
    (downloadAll st prov s today now).err = some .emptyDataMin ∧
    (downloadAll st prov s today now).st.symMeta = st.symMeta ∧
    (downloadAll st prov s today now).st.slices = st.slices ∧
    (roll st prov cal today now).err = some .emptyDataMin ∧
    (roll st prov cal today now).st.symMeta = st.symMeta := by
  have hdl : downloadAll st prov s today now =
      { st := { st with dirs := fun c2 s2 =>
          if c2 = c ∧ s2 = s then true else st.dirs c2 s2 },
        evs := (backfillWindows today).map (fun w => Ev.fetch [s] w (w + 8)),
        err := some .emptyDataMin } := by
    simp only [downloadAll, hc, hempty, List.map_nil, listMin, listMax]
  refine ⟨by rw [hdl], by rw [hdl], by rw [hdl], ?_, ?_⟩
  · simp only [roll, hlist, rollClassify, isExisting, hc, hnew, Option.isSome_none,
      Bool.false_eq_true, if_false, hdl]
  · simp only [roll, hlist, rollClassify, isExisting, hc, hnew, Option.isSome_none,
      Bool.false_eq_true, if_false, hdl]

/-- C1 witness: the amended theorem at the concrete two-symbol state with an
empty provider for `A`. -/
theorem backfill_empty_error_propagates_witness :
    (downloadAll stTwoNew provEmptyA "A" 100 "t").err = some .emptyDataMin ∧
    (downloadAll stTwoNew provEmptyA "A" 100 "t").st.symMeta =
      stTwoNew.symMeta ∧
    (downloadAll stTwoNew provEmptyA "A" 100 "t").st.slices =
      stTwoNew.slices ∧
    (roll stTwoNew provEmptyA calOpen 100 "t").err = some .emptyDataMin ∧
    (roll stTwoNew provEmptyA calOpen 100 "t").st.symMeta =
      stTwoNew.symMeta :=
  backfill_empty_error_propagates stTwoNew provEmptyA calOpen "A" ["B"] 100 "t"
    "c" rfl rfl rfl rfl

/-! ### C5 -/

/-- A nonempty date list has a maximum whenever it has a minimum. -/
theorem listMax_isSome_of_min (l : List Date) (mn : Date)
    (h : listMin l = some mn) : ∃ mx, listMax l = some mx := by
  cases l with
  | nil => simp [listMin] at h
  | cons d rest => exact ⟨_, rfl⟩

/-- A key the merged-in dict carries wins the merge, whether or not a prior
record existed. -/
theorem mergeInto_lookup_some (ex : Option Dict) (meta : Dict) (k : String)
    (v : Val) (h : meta k = some v) : mergeInto ex meta k = some v := by
  cases ex <;> simp [mergeInto, dictUpdate, h]

/-- Success-path description of the backfill: when the symbol has a category,
the concatenated rows are nonempty and the earliest-date computation
succeeds, the backfill succeeds and writes the merged per-symbol record. -/
theorem downloadAll_spec (st : St) (prov : Provider) (s : Sym) (today : Date)
    (now : String) (c : Cat) (attrs : Dict) (mn mx e : Date)
    (hc : getSymbolCategory st s = some c)
    (hattrs : st.watchlist c s = some attrs)
    (hmn : listMin ((backfillRows prov s today).map (·.day)) = some mn)
    (hmx : listMax ((backfillRows prov s today).map (·.day)) = some mx)
    (he : earliestOf (st.agg.cats c s) mn s = .ok e) :
    (downloadAll st prov s today now).err = none ∧
    (downloadAll st prov s today now).st.symMeta c s =
      some (mergeInto (st.symMeta c s)
        (dictUpdate (baseRec s now) (backfillEntry attrs e mx))) := by
  have hc' := hc
  rw [getSymbolCategory] at hc'
  simp only [downloadAll, hc, hmn, hmx, he, hattrs, updateSymbolMetaFile,
    getSymbolCategory, hc']
  exact ⟨trivial, by simp⟩

/-- C5 (confirmed): after a successful backfill, a symbol with a prior
coverage record gets `earliest_date = min(fetched minimum, prior earliest)`,
which is ≤ the prior earliest (so repeated backfills never move it forward),
and a symbol with no prior record gets `earliest_date = fetched minimum`. -/
theorem backfill_earliest_monotone
    (st stN : St) (prov : Provider) (s : Sym) (today : Date) (now : String)
    (c cN : Cat) (attrs attrsN m : Dict) (pe mn : Date)
    (hc : getSymbolCategory st s = some c)
    (hattrs : st.watchlist c s = some attrs)
    (hAttrE : attrs "earliest_date" = none)
    (hmn : listMin ((backfillRows prov s today).map (·.day)) = some mn)
    (hprior : st.agg.cats c s = some m)
    (hpe : getDate m "earliest_date" = some pe)
    (hcN : getSymbolCategory stN s = some cN)
    (hattrsN : stN.watchlist cN s = some attrsN)
    (hAttrEN : attrsN "earliest_date" = none)
    (hpriorN : stN.agg.cats cN s = none) :
    (∃ r, (downloadAll st prov s today now).st.symMeta c s = some r ∧
       getDate r "earliest_date" = some (min mn pe)) ∧
    min mn pe ≤ pe ∧
    (∃ r, (downloadAll stN prov s today now).st.symMeta cN s = some r ∧
       getDate r "earliest_date" = some mn) := by
  obtain ⟨mx, hmx⟩ := listMax_isSome_of_min _ _ hmn
  refine ⟨?_, min_le_right _ _, ?_⟩
  · obtain ⟨-, h2⟩ := downloadAll_spec st prov s today now c attrs mn mx
      (min mn pe) hc hattrs hmn hmx (by simp [earliestOf, hprior, hpe])
    refine ⟨_, h2, ?_⟩
    have hlook : (mergeInto (st.symMeta c s) (dictUpdate (baseRec s now)
        (backfillEntry attrs (min mn pe) mx))) "earliest_date" =
        some (.date (min mn pe)) :=
      mergeInto_lookup_some _ _ _ _
        (by simp [dictUpdate, backfillEntry, hAttrE])
    simp [getDate, hlook]
  · obtain ⟨-, h2⟩ := downloadAll_spec stN prov s today now cN attrsN mn mx
      mn hcN hattrsN hmn hmx (by simp [earliestOf, hpriorN])
    refine ⟨_, h2, ?_⟩
    have hlook : (mergeInto (stN.symMeta cN s) (dictUpdate (baseRec s now)
        (backfillEntry attrsN mn mx))) "earliest_date" =
        some (.date mn) :=
      mergeInto_lookup_some _ _ _ _
        (by simp [dictUpdate, backfillEntry, hAttrEN])
    simp [getDate, hlook]

/-- C5 witness: the earliest-date behavior at the concrete covered state
(`stOne`, prior earliest 0) and the concrete fresh state (`stTwoNew`), with
a provider whose rows give a fetched minimum of day 73. -/
theorem backfill_earliest_monotone_witness :
    (∃ r, (downloadAll stOne provLate "A" 100 "t").st.symMeta "c" "A" =
        some r ∧
       getDate r "earliest_date" = some (min 73 0)) ∧
    min (73 : Date) 0 ≤ 0 ∧
    (∃ r, (downloadAll stTwoNew provLate "A" 100 "t").st.symMeta "c" "A" =
        some r ∧
       getDate r "earliest_date" = some 73) :=
  backfill_earliest_monotone stOne stTwoNew provLate "A" 100 "t" "c" "c"
    exAttrs exAttrs exRec 0 73 rfl rfl rfl (by decide) rfl rfl rfl rfl rfl rfl

/-! ### Frame and congruence lemmas -/

/-- A successful meta-file write is the input state with the (category,
symbol) record replaced. -/
theorem updateSymbolMetaFile_ok (st : St) (s : Sym) (entry : Dict)
    (now : String) (c : Cat) (hc : getSymbolCategory st s = some c) :
    updateSymbolMetaFile st s entry now = .ok { st with
      symMeta := fun c2 s2 =>
        if c2 = c ∧ s2 = s then
          some (mergeInto (st.symMeta c s) (dictUpdate (baseRec s now) entry))
        else st.symMeta c2 s2 } := by
  rw [updateSymbolMetaFile, hc]

/-- A meta-file write touches nothing but its own symbol's record. -/
theorem updateSymbolMetaFile_frame (st st2 : St) (s : Sym) (entry : Dict)
    (now : String) (h : updateSymbolMetaFile st s entry now = .ok st2) :
    st2.categories = st.categories ∧ st2.watchlist = st.watchlist ∧
    st2.symbolsList = st.symbolsList ∧ st2.dirs = st.dirs ∧
    st2.slices = st.slices ∧ st2.agg = st.agg ∧ st2.diskAgg = st.diskAgg ∧
    ∀ c2 s2, s2 ≠ s → st2.symMeta c2 s2 = st.symMeta c2 s2 := by
  rw [updateSymbolMetaFile] at h
  cases hg : getSymbolCategory st s with
  | none => rw [hg] at h; exact absurd h (by simp)
  | some c =>
    rw [hg] at h
    injection h with h
    subst h
    refine ⟨rfl, rfl, rfl, rfl, rfl, rfl, rfl, ?_⟩
    intro c2 s2 hne
    simp [hne]

/-- The symbol-category lookup only reads the configuration fields. -/
theorem getSymbolCategory_congr (st st2 : St) (s : Sym)
    (h1 : st2.categories = st.categories) (h2 : st2.watchlist = st.watchlist) :
    getSymbolCategory st2 s = getSymbolCategory st s := by
  rw [getSymbolCategory, getSymbolCategory, h1, h2]

/-- The trading-day check only reads the configuration fields. -/
theorem isTradingDayForSymbol_congr (st st2 : St) (cal : Calendar) (s : Sym)
    (d : Date) (h1 : st2.categories = st.categories)
    (h2 : st2.watchlist = st.watchlist) :
    isTradingDayForSymbol st2 cal s d = isTradingDayForSymbol st cal s d := by
  rw [isTradingDayForSymbol, isTradingDayForSymbol,
    getSymbolCategory_congr st st2 s h1 h2, h2]

/-- The known-symbol test only reads the configuration and the aggregate. -/
theorem isExisting_congr (st st2 : St) (s : Sym)
    (h1 : st2.categories = st.categories) (h2 : st2.watchlist = st.watchlist)
    (h3 : st2.agg = st.agg) :
    isExisting st2 s = isExisting st s := by
  rw [isExisting, isExisting, getSymbolCategory_congr st st2 s h1 h2, h3]

/-- A backfill only changes `dirs`, `slices` and the backfilled symbol's own
meta record; in particular the configuration and the in-memory aggregate are
untouched, and existing dir flags stay set. -/
theorem downloadAll_frame (st : St) (prov : Provider) (s : Sym) (today : Date)
    (now : String) :
    (downloadAll st prov s today now).st.categories = st.categories ∧
    (downloadAll st prov s today now).st.watchlist = st.watchlist ∧
    (downloadAll st prov s today now).st.symbolsList = st.symbolsList ∧
    (downloadAll st prov s today now).st.agg = st.agg ∧
    (∀ c2 s2, s2 ≠ s →
      (downloadAll st prov s today now).st.symMeta c2 s2 = st.symMeta c2 s2) ∧
    (∀ c2 s2 d2, s2 ≠ s →
      (downloadAll st prov s today now).st.slices c2 s2 d2 =
        st.slices c2 s2 d2) ∧
    (∀ c2 s2, st.dirs c2 s2 = true →
      (downloadAll st prov s today now).st.dirs c2 s2 = true) := by
  simp only [downloadAll]
  cases hg : getSymbolCategory st s with
  | none =>
    exact ⟨rfl, rfl, rfl, rfl, fun _ _ _ => rfl, fun _ _ _ _ => rfl,
      fun _ _ h => h⟩
  | some c =>
    simp only []
    cases hmn : listMin ((backfillRows prov s today).map (·.day)) with
    | none =>
      exact ⟨rfl, rfl, rfl, rfl, fun _ _ _ => rfl, fun _ _ _ _ => rfl,
        fun c2 s2 h => by simp [h]⟩
    | some mn =>
      cases hmx : listMax ((backfillRows prov s today).map (·.day)) with
      | none =>
        exact ⟨rfl, rfl, rfl, rfl, fun _ _ _ => rfl, fun _ _ _ _ => rfl,
          fun c2 s2 h => by simp [h]⟩
      | some mx =>
        simp only []
        cases he : earliestOf (st.agg.cats c s) mn s with
        | error e =>
          exact ⟨rfl, rfl, rfl, rfl, fun _ _ _ => rfl,
            fun c2 s2 d2 h => by simp [h], fun c2 s2 h => by simp [h]⟩
        | ok e =>
          simp only []
          cases hwl : st.watchlist c s with
          | none =>
            exact ⟨rfl, rfl, rfl, rfl, fun _ _ _ => rfl,
              fun c2 s2 d2 h => by simp [h], fun c2 s2 h => by simp [h]⟩
          | some attrs =>
            simp only []
            split
            · exact ⟨rfl, rfl, rfl, rfl, fun _ _ _ => rfl,
                fun c2 s2 d2 h => by simp [h], fun c2 s2 h => by simp [h]⟩
            · rename_i st3 heq
              obtain ⟨f1, f2, f3, f4, f5, f6, f7, f8⟩ :=
                updateSymbolMetaFile_frame _ _ _ _ _ heq
              refine ⟨f1, f2, f3, f6, ?_, ?_, ?_⟩
              · intro c2 s2 h
                rw [f8 c2 s2 h]
              · intro c2 s2 d2 h
                rw [show st3.slices = _ from f5]
                simp [h]
              · intro c2 s2 h
                rw [show st3.dirs = _ from f4]
                simp [h]

/-- Every event a backfill emits is an 8-day window fetch for the backfilled
symbol, a slice write for it, or its meta write. -/
theorem downloadAll_evs_shape (st : St) (prov : Provider) (s : Sym)
    (today : Date) (now : String) (e : Ev)
    (he : e ∈ (downloadAll st prov s today now).evs) :
    (∃ w, e = .fetch [s] w (w + 8)) ∨
    (∃ c2 d2, e = .writeSlice c2 s d2) ∨ (∃ c2, e = .writeMeta c2 s) := by
  simp only [downloadAll] at he
  cases hg : getSymbolCategory st s <;> rw [hg] at he <;> try simp only [] at he
  case none =>
    obtain ⟨w, -, hw⟩ := List.mem_map.mp he
    exact .inl ⟨w, hw.symm⟩
  case some c =>
  cases hmn : listMin ((backfillRows prov s today).map (·.day)) <;>
    rw [hmn] at he <;> try simp only [] at he
  case none =>
    obtain ⟨w, -, hw⟩ := List.mem_map.mp he
    exact .inl ⟨w, hw.symm⟩
  case some mn =>
  cases hmx : listMax ((backfillRows prov s today).map (·.day)) <;>
    rw [hmx] at he <;> try simp only [] at he
  case none =>
    obtain ⟨w, -, hw⟩ := List.mem_map.mp he
    exact .inl ⟨w, hw.symm⟩
  case some mx =>
  cases he2 : earliestOf (st.agg.cats c s) mn s <;> rw [he2] at he <;>
    try simp only [] at he
  case error e =>
    rcases List.mem_append.mp he with h | h
    · obtain ⟨w, -, hw⟩ := List.mem_map.mp h
      exact .inl ⟨w, hw.symm⟩
    · obtain ⟨d2, -, hd⟩ := List.mem_map.mp h
      exact .inr (.inl ⟨_, d2, hd.symm⟩)
  case ok e =>
  cases hwl : st.watchlist c s <;> rw [hwl] at he <;> try simp only [] at he
  case none =>
    rcases List.mem_append.mp he with h | h
    · obtain ⟨w, -, hw⟩ := List.mem_map.mp h
      exact .inl ⟨w, hw.symm⟩
    · obtain ⟨d2, -, hd⟩ := List.mem_map.mp h
      exact .inr (.inl ⟨_, d2, hd.symm⟩)
  case some attrs =>
  split at he
  · rcases List.mem_append.mp he with h | h
    · obtain ⟨w, -, hw⟩ := List.mem_map.mp h
      exact .inl ⟨w, hw.symm⟩
    · obtain ⟨d2, -, hd⟩ := List.mem_map.mp h
      exact .inr (.inl ⟨_, d2, hd.symm⟩)
  · rcases List.mem_append.mp he with h | h
    · rcases List.mem_append.mp h with h2 | h2
      · obtain ⟨w, -, hw⟩ := List.mem_map.mp h2
        exact .inl ⟨w, hw.symm⟩
      · obtain ⟨d2, -, hd⟩ := List.mem_map.mp h2
        exact .inr (.inl ⟨_, d2, hd.symm⟩)
    · rw [List.mem_singleton.mp h]
      exact .inr (.inr ⟨_, rfl⟩)

/-- A backfill never issues a single-day fetch: all its provider calls span
8 days. -/
theorem downloadAll_no_day_fetch (st : St) (prov : Provider) (s : Sym)
    (today : Date) (now : String) (L : List Sym) (a : Date) :
    Ev.fetch L a (a + 1) ∉ (downloadAll st prov s today now).evs := by
  intro h
  rcases downloadAll_evs_shape st prov s today now _ h with
    ⟨w, hw⟩ | ⟨c2, d2, h2⟩ | ⟨c2, h2⟩
  · injection hw with h1 h2 h3
    subst h2
    exact absurd (add_left_cancel h3) (by decide)
  · exact Ev.noConfusion h2
  · exact Ev.noConfusion h2

/-- A meta-file write cannot fail when the symbol has a category. -/
theorem updateSymbolMetaFile_ne_error (st : St) (s : Sym) (entry : Dict)
    (now : String) (c : Cat) (e : Err)
    (h : updateSymbolMetaFile st s entry now = .error e)
    (hc : getSymbolCategory st s = some c) : False := by
  rw [updateSymbolMetaFile, hc] at h
  exact Except.noConfusion h

/-- The record a successful meta-file write leaves for its own symbol. -/
theorem updateSymbolMetaFile_symMeta (st st2 : St) (s : Sym) (entry : Dict)
    (now : String) (c : Cat)
    (h : updateSymbolMetaFile st s entry now = .ok st2)
    (hc : getSymbolCategory st s = some c) :
    st2.symMeta c s =
      some (mergeInto (st.symMeta c s) (dictUpdate (baseRec s now) entry)) := by
  rw [updateSymbolMetaFile, hc] at h
  injection h with h
  subst h
  simp

/-- A successful meta-file write leaves every other (category, symbol) record
untouched. -/
theorem updateSymbolMetaFile_other (st st2 : St) (s : Sym) (entry : Dict)
    (now : String) (c c0 : Cat) (s0 : Sym)
    (h : updateSymbolMetaFile st s entry now = .ok st2)
    (hc : getSymbolCategory st s = some c)
    (hkey : ¬(c0 = c ∧ s0 = s)) :
    st2.symMeta c0 s0 = st.symMeta c0 s0 := by
  rw [updateSymbolMetaFile, hc] at h
  injection h with h
  subst h
  simp [hkey]

/-- The record written by `roll`'s per-symbol update always carries
`latest_date = d`. -/
theorem rollEntry_latest (ex : Option Dict) (s : Sym) (now : String)
    (d : Date) :
    mergeInto ex (dictUpdate (baseRec s now)
        (fun k => if k = "latest_date" then some (.date d) else none))
      "latest_date" = some (.date d) :=
  mergeInto_lookup_some _ _ _ _ (by simp [dictUpdate])

/-! ### Loop lemmas for `roll` -/

/-- A saving step for a symbol with no surviving rows does nothing. -/
theorem rollSaveStep_skip (prov : Provider) (d : Date) (now : String)
    (st : St) (s : Sym)
    (hemp : (dropna (prov s d (d + 1))).isEmpty = true) :
    rollSaveStep prov d now st s = (st, [], none) := by
  simp only [rollSaveStep, hemp, if_pos]

/-- A saving step for a symbol outside every category raises. -/
theorem rollSaveStep_cat_none (prov : Provider) (d : Date) (now : String)
    (st : St) (s : Sym)
    (hg : getSymbolCategory st s = none)
    (hemp : (dropna (prov s d (d + 1))).isEmpty = false) :
    rollSaveStep prov d now st s = (st, [], some (.symbolNotInCategory s)) := by
  simp only [rollSaveStep, hemp, hg, Bool.false_eq_true, if_false]

/-- A saving step for a categorized symbol with surviving rows writes the
slice and then the meta record with `latest_date = d`. -/
theorem rollSaveStep_write (prov : Provider) (d : Date) (now : String)
    (st : St) (s : Sym) (c : Cat)
    (hc : getSymbolCategory st s = some c)
    (hemp : (dropna (prov s d (d + 1))).isEmpty = false) :
    rollSaveStep prov d now st s =
      ({ st with
          slices := fun c2 s2 d2 =>
            if c2 = c ∧ s2 = s ∧ d2 = d then some (prov s d (d + 1))
            else st.slices c2 s2 d2,
          symMeta := fun c2 s2 =>
            if c2 = c ∧ s2 = s then
              some (mergeInto (st.symMeta c s) (dictUpdate (baseRec s now)
                (fun k => if k = "latest_date" then some (.date d) else none)))
            else st.symMeta c2 s2 },
       [Ev.writeSlice c s d, Ev.writeMeta c s], none) := by
  have hc2 := hc
  rw [getSymbolCategory] at hc2
  simp only [rollSaveStep, hemp, hc, updateSymbolMetaFile, getSymbolCategory,
    hc2, Bool.false_eq_true, if_false]

/-- A saving step preserves configuration, aggregate and dir flags. -/
theorem rollSaveStep_frame (prov : Provider) (d : Date) (now : String)
    (st : St) (s : Sym) :
    (rollSaveStep prov d now st s).1.categories = st.categories ∧
    (rollSaveStep prov d now st s).1.watchlist = st.watchlist ∧
    (rollSaveStep prov d now st s).1.symbolsList = st.symbolsList ∧
    (rollSaveStep prov d now st s).1.agg = st.agg ∧
    (rollSaveStep prov d now st s).1.dirs = st.dirs := by
  cases hemp : (dropna (prov s d (d + 1))).isEmpty with
  | true =>
    rw [rollSaveStep_skip prov d now st s hemp]
    exact ⟨rfl, rfl, rfl, rfl, rfl⟩
  | false =>
    cases hg : getSymbolCategory st s with
    | none =>
      rw [rollSaveStep_cat_none prov d now st s hg hemp]
      exact ⟨rfl, rfl, rfl, rfl, rfl⟩
    | some c =>
      rw [rollSaveStep_write prov d now st s c hg hemp]
      exact ⟨rfl, rfl, rfl, rfl, rfl⟩

/-- After a saving step, a record is either untouched or stamped with
`latest_date = d`. -/
theorem rollSaveStep_symMeta_cases (prov : Provider) (d : Date) (now : String)
    (st : St) (s : Sym) (c0 : Cat) (s0 : Sym) :
    (rollSaveStep prov d now st s).1.symMeta c0 s0 = st.symMeta c0 s0 ∨
    ∃ r0, (rollSaveStep prov d now st s).1.symMeta c0 s0 = some r0 ∧
      r0 "latest_date" = some (.date d) := by
  cases hemp : (dropna (prov s d (d + 1))).isEmpty with
  | true => rw [rollSaveStep_skip prov d now st s hemp]; exact .inl rfl
  | false =>
    cases hg : getSymbolCategory st s with
    | none => rw [rollSaveStep_cat_none prov d now st s hg hemp]; exact .inl rfl
    | some c =>
      rw [rollSaveStep_write prov d now st s c hg hemp]
      by_cases hkey : c0 = c ∧ s0 = s
      · obtain ⟨h1, h2⟩ := hkey
        subst h1; subst h2
        exact .inr ⟨mergeInto (st.symMeta c0 s0) (dictUpdate (baseRec s0 now)
          (fun k => if k = "latest_date" then some (.date d) else none)),
          by simp, rollEntry_latest _ _ _ _⟩
      · exact .inl (by simp [hkey])

/-- After a saving step, a slice is either untouched or the fresh target-day
rows of its own symbol. -/
theorem rollSaveStep_slices_cases (prov : Provider) (d : Date) (now : String)
    (st : St) (s : Sym) (c0 : Cat) (s0 : Sym) (d0 : Date) :
    (rollSaveStep prov d now st s).1.slices c0 s0 d0 = st.slices c0 s0 d0 ∨
    (d0 = d ∧ (rollSaveStep prov d now st s).1.slices c0 s0 d0 =
      some (prov s0 d (d + 1))) := by
  cases hemp : (dropna (prov s d (d + 1))).isEmpty with
  | true => rw [rollSaveStep_skip prov d now st s hemp]; exact .inl rfl
  | false =>
    cases hg : getSymbolCategory st s with
    | none => rw [rollSaveStep_cat_none prov d now st s hg hemp]; exact .inl rfl
    | some c =>
      rw [rollSaveStep_write prov d now st s c hg hemp]
      by_cases hkey : c0 = c ∧ s0 = s ∧ d0 = d
      · obtain ⟨h1, h2, h3⟩ := hkey
        subst h1; subst h2; subst h3
        exact .inr ⟨rfl, by simp⟩
      · exact .inl (by simp [hkey])

/-- A saving step leaves every other symbol's record untouched. -/
theorem rollSaveStep_symMeta_other (prov : Provider) (d : Date) (now : String)
    (st : St) (s : Sym) (c0 : Cat) (s0 : Sym) (hne : s0 ≠ s) :
    (rollSaveStep prov d now st s).1.symMeta c0 s0 = st.symMeta c0 s0 := by
  cases hemp : (dropna (prov s d (d + 1))).isEmpty with
  | true => rw [rollSaveStep_skip prov d now st s hemp]
  | false =>
    cases hg : getSymbolCategory st s with
    | none => rw [rollSaveStep_cat_none prov d now st s hg hemp]
    | some c =>
      rw [rollSaveStep_write prov d now st s c hg hemp]
      simp [hne]

/-- A saving step issues no provider call. -/
theorem rollSaveStep_no_fetch (prov : Provider) (d : Date) (now : String)
    (st : St) (s : Sym) (L : List Sym) (a b : Date) :
    Ev.fetch L a b ∉ (rollSaveStep prov d now st s).2.1 := by
  cases hemp : (dropna (prov s d (d + 1))).isEmpty with
  | true =>
    rw [rollSaveStep_skip prov d now st s hemp]
    exact List.not_mem_nil _
  | false =>
    cases hg : getSymbolCategory st s with
    | none =>
      rw [rollSaveStep_cat_none prov d now st s hg hemp]
      exact List.not_mem_nil _
    | some c =>
      rw [rollSaveStep_write prov d now st s c hg hemp]
      intro h
      rcases List.mem_cons.mp h with h2 | h2
      · exact Ev.noConfusion h2
      · exact Ev.noConfusion (List.mem_singleton.mp h2)

/-- The saving loop preserves configuration, aggregate and dir flags. -/
theorem rollSave_frame (prov : Provider) (d : Date) (now : String) :
    ∀ (l : List Sym) (st : St),
    (rollSave prov d now st l).1.categories = st.categories ∧
    (rollSave prov d now st l).1.watchlist = st.watchlist ∧
    (rollSave prov d now st l).1.symbolsList = st.symbolsList ∧
    (rollSave prov d now st l).1.agg = st.agg ∧
    (rollSave prov d now st l).1.dirs = st.dirs := by
  intro l
  induction l with
  | nil => exact fun st => ⟨rfl, rfl, rfl, rfl, rfl⟩
  | cons s rest ih =>
    intro st
    obtain ⟨f1, f2, f3, f4, f5⟩ := rollSaveStep_frame prov d now st s
    simp only [rollSave]
    cases herr : (rollSaveStep prov d now st s).2.2 with
    | some e => exact ⟨f1, f2, f3, f4, f5⟩
    | none =>
      obtain ⟨i1, i2, i3, i4, i5⟩ := ih ((rollSaveStep prov d now st s).1)
      exact ⟨i1.trans f1, i2.trans f2, i3.trans f3, i4.trans f4, i5.trans f5⟩

/-- After the saving loop, each record is either untouched or stamped with
`latest_date = d`. -/
theorem rollSave_symMeta_cases (prov : Provider) (d : Date) (now : String) :
    ∀ (l : List Sym) (st : St) (c0 : Cat) (s0 : Sym),
    (rollSave prov d now st l).1.symMeta c0 s0 = st.symMeta c0 s0 ∨
    ∃ r0, (rollSave prov d now st l).1.symMeta c0 s0 = some r0 ∧
      r0 "latest_date" = some (.date d) := by
  intro l
  induction l with
  | nil => exact fun st c0 s0 => .inl rfl
  | cons s rest ih =>
    intro st c0 s0
    simp only [rollSave]
    cases herr : (rollSaveStep prov d now st s).2.2 with
    | some e => exact rollSaveStep_symMeta_cases prov d now st s c0 s0
    | none =>
      rcases ih ((rollSaveStep prov d now st s).1) c0 s0 with h | ⟨r0, hr0, hl⟩
      · rcases rollSaveStep_symMeta_cases prov d now st s c0 s0 with
          h2 | ⟨r0, hr0, hl⟩
        · exact .inl (h.trans h2)
        · exact .inr ⟨r0, h.trans hr0, hl⟩
      · exact .inr ⟨r0, hr0, hl⟩

/-- After the saving loop, each slice is either untouched or the fresh
target-day rows of its own symbol. -/
theorem rollSave_slices_cases (prov : Provider) (d : Date) (now : String) :
    ∀ (l : List Sym) (st : St) (c0 : Cat) (s0 : Sym) (d0 : Date),
    (rollSave prov d now st l).1.slices c0 s0 d0 = st.slices c0 s0 d0 ∨
    (d0 = d ∧ (rollSave prov d now st l).1.slices c0 s0 d0 =
      some (prov s0 d (d + 1))) := by
  intro l
  induction l with
  | nil => exact fun st c0 s0 d0 => .inl rfl
  | cons s rest ih =>
    intro st c0 s0 d0
    simp only [rollSave]
    cases herr : (rollSaveStep prov d now st s).2.2 with
    | some e => exact rollSaveStep_slices_cases prov d now st s c0 s0 d0
    | none =>
      rcases ih ((rollSaveStep prov d now st s).1) c0 s0 d0 with h | ⟨h3, hv⟩
      · rcases rollSaveStep_slices_cases prov d now st s c0 s0 d0 with
          h2 | ⟨h3, hv⟩
        · exact .inl (h.trans h2)
        · exact .inr ⟨h3, h.trans hv⟩
      · exact .inr ⟨h3, hv⟩

/-- A symbol whose target-day rows vanish under `dropna` keeps its record
through the whole saving loop. -/
theorem rollSave_symMeta_skip (prov : Provider) (d : Date) (now : String)
    (s : Sym) (hemp : (dropna (prov s d (d + 1))).isEmpty = true) :
    ∀ (l : List Sym) (st : St) (c0 : Cat),
    (rollSave prov d now st l).1.symMeta c0 s = st.symMeta c0 s := by
  have hstep : ∀ (st : St) (s2 : Sym) (c0 : Cat),
      (rollSaveStep prov d now st s2).1.symMeta c0 s = st.symMeta c0 s := by
    intro st s2 c0
    by_cases hss : s = s2
    · subst hss
      rw [rollSaveStep_skip prov d now st s hemp]
    · exact rollSaveStep_symMeta_other prov d now st s2 c0 s hss
  intro l
  induction l with
  | nil => exact fun st c0 => rfl
  | cons s2 rest ih =>
    intro st c0
    simp only [rollSave]
    cases herr : (rollSaveStep prov d now st s2).2.2 with
    | some e => exact hstep st s2 c0
    | none =>
      exact Eq.trans (ih ((rollSaveStep prov d now st s2).1) c0) (hstep st s2 c0)

/-- The saving loop issues no provider call. -/
theorem rollSave_no_fetch (prov : Provider) (d : Date) (now : String) :
    ∀ (l : List Sym) (st : St) (L : List Sym) (a b : Date),
    Ev.fetch L a b ∉ (rollSave prov d now st l).2.1 := by
  intro l
  induction l with
  | nil => exact fun st L a b => List.not_mem_nil _
  | cons s rest ih =>
    intro st L a b
    simp only [rollSave]
    cases herr : (rollSaveStep prov d now st s).2.2 with
    | some e => exact rollSaveStep_no_fetch prov d now st s L a b
    | none =>
      intro h
      rcases List.mem_append.mp h with h2 | h2
      · exact rollSaveStep_no_fetch prov d now st s L a b h2
      · exact ih ((rollSaveStep prov d now st s).1) L a b h2

/-- A fetched symbol with surviving rows gets, by the end of the saving
loop: a record whose `latest_date` is the target date, the fresh slice for
that date, and its slice write followed by its meta write in the trace. -/
theorem rollSave_mem_spec (prov : Provider) (d : Date) (now : String) :
    ∀ (l : List Sym) (st : St) (s : Sym) (c : Cat),
    s ∈ l → getSymbolCategory st s = some c →
    (dropna (prov s d (d + 1))).isEmpty = false →
    (rollSave prov d now st l).2.2 = none →
    (∃ r0, (rollSave prov d now st l).1.symMeta c s = some r0 ∧
       r0 "latest_date" = some (.date d)) ∧
    (rollSave prov d now st l).1.slices c s d = some (prov s d (d + 1)) ∧
    [Ev.writeSlice c s d, Ev.writeMeta c s].Sublist
      (rollSave prov d now st l).2.1 := by
  intro l
  induction l with
  | nil => exact fun st s c hmem => absurd hmem (List.not_mem_nil s)
  | cons s2 rest ih =>
    intro st s c hmem hc hrows herr
    by_cases hss : s2 = s
    · subst hss
      have hw := rollSaveStep_write prov d now st s2 c hc hrows
      have h1 : (rollSaveStep prov d now st s2).1.symMeta c s2 =
          some (mergeInto (st.symMeta c s2) (dictUpdate (baseRec s2 now)
            (fun k => if k = "latest_date" then some (.date d) else none))) := by
        rw [hw]; simp
      have h2 : (rollSaveStep prov d now st s2).1.slices c s2 d =
          some (prov s2 d (d + 1)) := by
        rw [hw]; simp
      have h3 : (rollSaveStep prov d now st s2).2.1 =
          [Ev.writeSlice c s2 d, Ev.writeMeta c s2] := by rw [hw]
      have h4 : (rollSaveStep prov d now st s2).2.2 = none := by rw [hw]
      simp only [rollSave, h4] at herr ⊢
      refine ⟨?_, ?_, ?_⟩
      · rcases rollSave_symMeta_cases prov d now rest
            ((rollSaveStep prov d now st s2).1) c s2 with h | ⟨r0, hr0, hl⟩
        · exact ⟨_, h.trans h1, rollEntry_latest _ _ _ _⟩
        · exact ⟨r0, hr0, hl⟩
      · rcases rollSave_slices_cases prov d now rest
            ((rollSaveStep prov d now st s2).1) c s2 d with h | ⟨h5, hv⟩
        · exact h.trans h2
        · exact hv
      · rw [h3]
        exact List.sublist_append_left _ _
    · have hmem2 : s ∈ rest := by
        rcases List.mem_cons.mp hmem with h | h
        · exact absurd h.symm hss
        · exact h
      simp only [rollSave] at herr ⊢
      cases herr2 : (rollSaveStep prov d now st s2).2.2 with
      | some e =>
        rw [herr2] at herr
        simp at herr
      | none =>
        rw [herr2] at herr
        simp only [] at herr
        obtain ⟨f1, f2, f3, f4, f5⟩ := rollSaveStep_frame prov d now st s2
        have hc2 : getSymbolCategory ((rollSaveStep prov d now st s2).1) s =
            some c := by
          rw [getSymbolCategory_congr st ((rollSaveStep prov d now st s2).1) s
            f1 f2]
          exact hc
        obtain ⟨g1, g2, g3⟩ := ih ((rollSaveStep prov d now st s2).1) s c hmem2
          hc2 hrows herr
        refine ⟨g1, g2, g3.trans (List.sublist_append_right _ _)⟩

/-- The classification loop preserves configuration and aggregate. -/
theorem rollClassify_frame (prov : Provider) (today : Date) (now : String) :
    ∀ (l : List Sym) (st : St),
    (rollClassify prov today now st l).1.categories = st.categories ∧
    (rollClassify prov today now st l).1.watchlist = st.watchlist ∧
    (rollClassify prov today now st l).1.symbolsList = st.symbolsList ∧
    (rollClassify prov today now st l).1.agg = st.agg := by
  intro l
  induction l with
  | nil => exact fun st => ⟨rfl, rfl, rfl, rfl⟩
  | cons s rest ih =>
    intro st
    simp only [rollClassify]
    cases hexs : isExisting st s with
    | true =>
      rw [if_pos rfl]
      exact ih st
    | false =>
      rw [if_neg (by simp)]
      obtain ⟨d1, d2, d3, d4, -, -, -⟩ := downloadAll_frame st prov s today now
      cases ho : (downloadAll st prov s today now).err with
      | some e => exact ⟨d1, d2, d3, d4⟩
      | none =>
        obtain ⟨i1, i2, i3, i4⟩ := ih ((downloadAll st prov s today now).st)
        exact ⟨i1.trans d1, i2.trans d2, i3.trans d3, i4.trans d4⟩

/-- The classification loop never touches the record of a symbol it treats
as already known. -/
theorem rollClassify_symMeta_existing (prov : Provider) (today : Date)
    (now : String) (s0 : Sym) (c0 : Cat) :
    ∀ (l : List Sym) (st : St),
    getSymbolCategory st s0 = some c0 → (st.agg.cats c0 s0).isSome = true →
    (rollClassify prov today now st l).1.symMeta c0 s0 = st.symMeta c0 s0 := by
  intro l
  induction l with
  | nil => exact fun st _ _ => rfl
  | cons s rest ih =>
    intro st hc hex
    simp only [rollClassify]
    cases hexs : isExisting st s with
    | true =>
      rw [if_pos rfl]
      exact ih st hc hex
    | false =>
      rw [if_neg (by simp)]
      have hne : s0 ≠ s := by
        intro h
        subst h
        rw [isExisting, hc] at hexs
        simp only [] at hexs
        rw [hex] at hexs
        exact Bool.noConfusion hexs
      obtain ⟨d1, d2, d3, d4, d5, -, -⟩ := downloadAll_frame st prov s today now
      cases ho : (downloadAll st prov s today now).err with
      | some e => exact d5 c0 s0 hne
      | none =>
        have hc2 : getSymbolCategory ((downloadAll st prov s today now).st) s0 =
            some c0 := by
          rw [getSymbolCategory_congr st _ s0 d1 d2]
          exact hc
        have hex2 :
            (((downloadAll st prov s today now).st).agg.cats c0 s0).isSome =
              true := by
          rw [d4]
          exact hex
        exact (ih _ hc2 hex2).trans (d5 c0 s0 hne)

/-- On an error-free classification pass, every already-known symbol of the
input ends up in the collected list. -/
theorem rollClassify_existing_mem (prov : Provider) (today : Date)
    (now : String) (s0 : Sym) :
    ∀ (l : List Sym) (st : St),
    (rollClassify prov today now st l).2.2.1 = none →
    s0 ∈ l → isExisting st s0 = true →
    s0 ∈ (rollClassify prov today now st l).2.2.2 := by
  intro l
  induction l with
  | nil => exact fun st _ h => absurd h (List.not_mem_nil s0)
  | cons s rest ih =>
    intro st herr hmem hex
    simp only [rollClassify] at herr ⊢
    by_cases hexs : isExisting st s = true
    · rw [if_pos hexs] at herr ⊢
      simp only [] at herr ⊢
      by_cases hs0 : s0 = s
      · subst hs0
        exact List.mem_cons_self _ _
      · rcases List.mem_cons.mp hmem with h2 | h2
        · exact absurd h2 hs0
        · exact List.mem_cons_of_mem s (ih st herr h2 hex)
    · rw [if_neg hexs] at herr ⊢
      have hs0 : s0 ≠ s := by
        intro h
        subst h
        exact hexs hex
      have hmem2 : s0 ∈ rest := by
        rcases List.mem_cons.mp hmem with h2 | h2
        · exact absurd h2 hs0
        · exact h2
      obtain ⟨d1, d2, d3, d4, -, -, -⟩ := downloadAll_frame st prov s today now
      cases ho : (downloadAll st prov s today now).err with
      | some e =>
        rw [ho] at herr
        simp at herr
      | none =>
        rw [ho] at herr
        simp only [] at herr ⊢
        have hex2 : isExisting ((downloadAll st prov s today now).st) s0 =
            true := by
          rw [isExisting_congr st _ s0 d1 d2 d4]
          exact hex
        exact ih ((downloadAll st prov s today now).st) herr hmem2 hex2

/-- The classification loop issues no single-day fetch: all its provider
calls are 8-day backfill windows. -/
theorem rollClassify_no_day_fetch (prov : Provider) (today : Date)
    (now : String) (L : List Sym) (a : Date) :
    ∀ (l : List Sym) (st : St),
    Ev.fetch L a (a + 1) ∉ (rollClassify prov today now st l).2.1 := by
  intro l
  induction l with
  | nil => exact fun st => List.not_mem_nil _
  | cons s rest ih =>
    intro st
    simp only [rollClassify]
    by_cases hexs : isExisting st s = true
    · rw [if_pos hexs]
      exact ih st
    · rw [if_neg hexs]
      cases ho : (downloadAll st prov s today now).err with
      | some e => exact downloadAll_no_day_fetch st prov s today now L a
      | none =>
        intro h
        rcases List.mem_append.mp h with h2 | h2
        · exact downloadAll_no_day_fetch st prov s today now L a h2
        · exact ih ((downloadAll st prov s today now).st) h2

/-- Only symbols whose exchange has a session pass the trading-day filter. -/
theorem tradingFilter_sound (st : St) (cal : Calendar) (d : Date) :
    ∀ (l L : List Sym) (s0 : Sym),
    tradingFilter st cal d l = .ok L → s0 ∈ L →
    isTradingDayForSymbol st cal s0 d = .ok true := by
  intro l
  induction l with
  | nil =>
    intro L s0 h hmem
    simp only [tradingFilter] at h
    injection h with h
    subst h
    exact absurd hmem (List.not_mem_nil s0)
  | cons s rest ih =>
    intro L s0 h hmem
    simp only [tradingFilter] at h
    cases htr : isTradingDayForSymbol st cal s d with
    | error e =>
      rw [htr] at h
      exact Except.noConfusion h
    | ok b =>
      rw [htr] at h
      cases b with
      | true =>
        simp only [] at h
        cases hf : tradingFilter st cal d rest with
        | error e =>
          rw [hf] at h
          exact Except.noConfusion h
        | ok L2 =>
          rw [hf] at h
          simp only [Except.map] at h
          injection h with h
          subst h
          rcases List.mem_cons.mp hmem with h2 | h2
          · subst h2
            exact htr
          · exact ih L2 s0 hf h2
      | false =>
        simp only [] at h
        exact ih L s0 h hmem

/-- Every symbol of the input whose exchange has a session survives the
trading-day filter. -/
theorem tradingFilter_mem_intro (st : St) (cal : Calendar) (d : Date) :
    ∀ (l L : List Sym) (s0 : Sym),
    tradingFilter st cal d l = .ok L → s0 ∈ l →
    isTradingDayForSymbol st cal s0 d = .ok true → s0 ∈ L := by
  intro l
  induction l with
  | nil =>
    intro L s0 h hmem
    exact absurd hmem (List.not_mem_nil s0)
  | cons s rest ih =>
    intro L s0 h hmem htr0
    simp only [tradingFilter] at h
    cases htr : isTradingDayForSymbol st cal s d with
    | error e =>
      rw [htr] at h
      exact Except.noConfusion h
    | ok b =>
      rw [htr] at h
      cases b with
      | true =>
        simp only [] at h
        cases hf : tradingFilter st cal d rest with
        | error e =>
          rw [hf] at h
          exact Except.noConfusion h
        | ok L2 =>
          rw [hf] at h
          simp only [Except.map] at h
          injection h with h
          subst h
          by_cases hs0 : s0 = s
          · subst hs0
            exact List.mem_cons_self _ _
          · rcases List.mem_cons.mp hmem with h2 | h2
            · exact absurd h2 hs0
            · exact List.mem_cons_of_mem s (ih L2 s0 hf h2 htr0)
      | false =>
        simp only [] at h
        rcases List.mem_cons.mp hmem with h2 | h2
        · subst h2
          rw [htr0] at htr
          injection htr with htr
          exact Bool.noConfusion htr
        · exact ih L s0 h h2 htr0

/-- The aggregate update touches nothing outside the aggregate document. -/
theorem updateStorageMeta_frame (st : St) (now : String) :
    (updateStorageMeta st now).categories = st.categories ∧
    (updateStorageMeta st now).watchlist = st.watchlist ∧
    (updateStorageMeta st now).symbolsList = st.symbolsList ∧
    (updateStorageMeta st now).symMeta = st.symMeta ∧
    (updateStorageMeta st now).slices = st.slices ∧
    (updateStorageMeta st now).dirs = st.dirs :=
  ⟨rfl, rfl, rfl, rfl, rfl, rfl⟩

/-- Success-path description of `roll` for an already-known symbol whose
exchange traded on the target day and whose batch rows survive `dropna`:
its slice for the target day is persisted, its record's `latest_date` is
the target day, and the slice write precedes the meta write in the trace. -/
theorem roll_updated_spec (st : St) (prov : Provider) (cal : Calendar)
    (today : Date) (now : String) (s : Sym) (c : Cat)
    (hc : getSymbolCategory st s = some c)
    (hex : (st.agg.cats c s).isSome = true)
    (hmem : s ∈ st.symbolsList)
    (htr : isTradingDayForSymbol st cal s (today - 1) = .ok true)
    (hrows : (dropna (prov s (today - 1) (today - 1 + 1))).isEmpty = false)
    (ho : (roll st prov cal today now).err = none) :
    (∃ r0, (roll st prov cal today now).st.symMeta c s = some r0 ∧
       r0 "latest_date" = some (.date (today - 1))) ∧
    (roll st prov cal today now).st.slices c s (today - 1) =
      some (prov s (today - 1) (today - 1 + 1)) ∧
    [Ev.writeSlice c s (today - 1), Ev.writeMeta c s].Sublist
      (roll st prov cal today now).evs := by
  obtain ⟨c1, c2, c3, c4⟩ := rollClassify_frame prov today now st.symbolsList st
  simp only [roll] at ho ⊢
  cases he1 : (rollClassify prov today now st st.symbolsList).2.2.1 with
  | some e =>
    try rw [he1] at ho
    simp at ho
  | none =>
    try rw [he1] at ho
    try simp only [] at ho ⊢
    have hexmem : s ∈ (rollClassify prov today now st st.symbolsList).2.2.2 :=
      rollClassify_existing_mem prov today now s st.symbolsList st he1 hmem
        (by rw [isExisting, hc]; simp only []; exact hex)
    have hne : ((rollClassify prov today now st st.symbolsList).2.2.2).isEmpty =
        false := by
      cases hl : (rollClassify prov today now st st.symbolsList).2.2.2 with
      | nil =>
        rw [hl] at hexmem
        exact absurd hexmem (List.not_mem_nil s)
      | cons a as => rfl
    rw [hne] at ho ⊢
    rw [if_neg (by simp)] at ho ⊢
    cases htf : tradingFilter (rollClassify prov today now st st.symbolsList).1
        cal (today - 1) (rollClassify prov today now st st.symbolsList).2.2.2 with
    | error e =>
      try rw [htf] at ho
      simp at ho
    | ok trading =>
      try rw [htf] at ho
      try simp only [] at ho ⊢
      have htr1 : isTradingDayForSymbol
          ((rollClassify prov today now st st.symbolsList).1) cal s
          (today - 1) = .ok true := by
        rw [isTradingDayForSymbol_congr st
          ((rollClassify prov today now st st.symbolsList).1) cal s
          (today - 1) c1 c2]
        exact htr
      have hmem3 : s ∈ trading :=
        tradingFilter_mem_intro _ cal (today - 1) _ trading s htf hexmem htr1
      have hc1 : getSymbolCategory
          ((rollClassify prov today now st st.symbolsList).1) s = some c := by
        rw [getSymbolCategory_congr st
          ((rollClassify prov today now st st.symbolsList).1) s c1 c2]
        exact hc
      cases hr2 : (rollSave prov (today - 1) now
          (rollClassify prov today now st st.symbolsList).1 trading).2.2 with
      | some e =>
        try rw [hr2] at ho
        simp at ho
      | none =>
        obtain ⟨g1, g2, g3⟩ := rollSave_mem_spec prov (today - 1) now trading
          ((rollClassify prov today now st st.symbolsList).1) s c hmem3 hc1
          hrows hr2
        exact ⟨g1, g2, g3.trans (List.sublist_append_right _ _)⟩

/-- `roll` leaves an already-known symbol's record untouched when its batch
rows vanish under `dropna`, whatever else happens. -/
theorem roll_symMeta_skip (st : St) (prov : Provider) (cal : Calendar)
    (today : Date) (now : String) (s : Sym) (c : Cat)
    (hc : getSymbolCategory st s = some c)
    (hex : (st.agg.cats c s).isSome = true)
    (hempty : (dropna (prov s (today - 1) (today - 1 + 1))).isEmpty = true) :
    (roll st prov cal today now).st.symMeta c s = st.symMeta c s := by
  have hcls : (rollClassify prov today now st st.symbolsList).1.symMeta c s =
      st.symMeta c s :=
    rollClassify_symMeta_existing prov today now s c st.symbolsList st hc hex
  simp only [roll]
  cases he1 : (rollClassify prov today now st st.symbolsList).2.2.1 with
  | some e => exact hcls
  | none =>
    try simp only []
    by_cases hne :
        ((rollClassify prov today now st st.symbolsList).2.2.2).isEmpty = true
    · rw [if_pos hne]
      exact hcls
    · rw [if_neg hne]
      cases htf : tradingFilter (rollClassify prov today now st st.symbolsList).1
          cal (today - 1)
          (rollClassify prov today now st st.symbolsList).2.2.2 with
      | error e => exact hcls
      | ok trading =>
        try simp only []
        have hsv := rollSave_symMeta_skip prov (today - 1) now s hempty trading
          ((rollClassify prov today now st st.symbolsList).1) c
        cases hr2 : (rollSave prov (today - 1) now
            (rollClassify prov today now st st.symbolsList).1 trading).2.2 with
        | some e => exact hsv.trans hcls
        | none => exact hsv.trans hcls

/-! ### C4 -/

/-- C4 counterexample: symbol `A` is covered through day 100; a roll run on
day 50 (so the target date is 49) succeeds, fetches rows for day 49, and
overwrites `latest_date` down to 49 — strictly below its previous value 100.
So `latest_date` after a successful roll is NOT always ≥ its previous value,
refuting the claim. -/
theorem roll_latest_date_regress_cex :
    ((roll stOne provOne calOpen 50 "t").st.symMeta "c" "A").bind
        (fun m => getDate m "latest_date") = some 49 ∧
    (stOne.symMeta "c" "A").bind (fun m => getDate m "latest_date") =
      some 100 ∧
    ¬((100 : Date) ≤ 49) ∧
    (roll stOne provOne calOpen 50 "t").err = none :=
  ⟨rfl, rfl, by decide, rfl⟩

/-- C4 (amended): after a successful roll, each already-known symbol updated
by the batch has `latest_date` set to exactly the target date `today - 1`
(a plain overwrite, not a maximum); consequently it is ≥ its previous value
precisely when the previous value was ≤ the target date. -/
theorem roll_latest_date_sets_target
    (st : St) (prov : Provider) (cal : Calendar) (today : Date) (now : String)
    (s : Sym) (c : Cat) (pl : Date)
    (hc : getSymbolCategory st s = some c)
    (hex : (st.agg.cats c s).isSome = true)
    (hmem : s ∈ st.symbolsList)
    (htr : isTradingDayForSymbol st cal s (today - 1) = .ok true)
    (hrows : (dropna (prov s (today - 1) (today - 1 + 1))).isEmpty = false)
    (ho : (roll st prov cal today now).err = none)
    (hpl : (st.symMeta c s).bind (fun m => getDate m "latest_date") = some pl)
    (hple : pl ≤ today - 1) :
    ((roll st prov cal today now).st.symMeta c s).bind
        (fun m => getDate m "latest_date") = some (today - 1) ∧
    ∃ nl, ((roll st prov cal today now).st.symMeta c s).bind
        (fun m => getDate m "latest_date") = some nl ∧ pl ≤ nl := by
  obtain ⟨⟨r0, hr0, hl⟩, -, -⟩ := roll_updated_spec st prov cal today now s c
    hc hex hmem htr hrows ho
  have hbind : ((roll st prov cal today now).st.symMeta c s).bind
      (fun m => getDate m "latest_date") = some (today - 1) := by
    rw [hr0]
    simp [getDate, hl]
  exact ⟨hbind, ⟨today - 1, hbind, hple⟩⟩

/-- C4 witness: the amended theorem at the concrete covered state, rolled on
day 101 so that the previous `latest_date` 100 equals the target date. -/
theorem roll_latest_date_sets_target_witness :
    ((roll stOne provOne calOpen 101 "t").st.symMeta "c" "A").bind
        (fun m => getDate m "latest_date") = some (101 - 1) ∧
    ∃ nl, ((roll stOne provOne calOpen 101 "t").st.symMeta "c" "A").bind
        (fun m => getDate m "latest_date") = some nl ∧ (100 : Date) ≤ nl :=
  roll_latest_date_sets_target stOne provOne calOpen 101 "t" "A" "c" 100
    rfl rfl (by decide) rfl rfl rfl rfl (by decide)

/-! ### C10 -/

/-- C10 (confirmed): in `roll`, an already-known symbol's coverage is updated
only when its fetched rows are non-empty after dropping all-missing rows —
with empty rows its record is untouched — and, when updated, the DailySlice
for the target date is persisted, the slice write precedes the coverage
write in the trace, and `latest_date` becomes the target date. -/
theorem roll_slice_then_coverage
    (st : St) (prov provE : Provider) (cal : Calendar) (today : Date)
    (now : String) (s : Sym) (c : Cat)
    (hc : getSymbolCategory st s = some c)
    (hex : (st.agg.cats c s).isSome = true)
    (hmem : s ∈ st.symbolsList)
    (htr : isTradingDayForSymbol st cal s (today - 1) = .ok true)
    (hrows : (dropna (prov s (today - 1) (today - 1 + 1))).isEmpty = false)
    (ho : (roll st prov cal today now).err = none)
    (hrowsE : (dropna (provE s (today - 1) (today - 1 + 1))).isEmpty = true) :
    (roll st prov cal today now).st.slices c s (today - 1) =
      some (prov s (today - 1) (today - 1 + 1)) ∧
    (∃ r0, (roll st prov cal today now).st.symMeta c s = some r0 ∧
       r0 "latest_date" = some (.date (today - 1))) ∧
    [Ev.writeSlice c s (today - 1), Ev.writeMeta c s].Sublist
      (roll st prov cal today now).evs ∧
    (roll st provE cal today now).st.symMeta c s = st.symMeta c s := by
  obtain ⟨g1, g2, g3⟩ := roll_updated_spec st prov cal today now s c
    hc hex hmem htr hrows ho
  exact ⟨g2, g1, g3,
    roll_symMeta_skip st provE cal today now s c hc hex hrowsE⟩

/-- C10 witness: the confirmed theorem at the concrete covered state, with a
providing provider and an all-empty provider side by side. -/
theorem roll_slice_then_coverage_witness :
    (roll stOne provOne calOpen 50 "t").st.slices "c" "A" (50 - 1) =
      some (provOne "A" (50 - 1) (50 - 1 + 1)) ∧
    (∃ r0, (roll stOne provOne calOpen 50 "t").st.symMeta "c" "A" = some r0 ∧
       r0 "latest_date" = some (.date (50 - 1))) ∧
    [Ev.writeSlice "c" "A" (50 - 1), Ev.writeMeta "c" "A"].Sublist
      (roll stOne provOne calOpen 50 "t").evs ∧
    (roll stOne provNone calOpen 50 "t").st.symMeta "c" "A" =
      stOne.symMeta "c" "A" :=
  roll_slice_then_coverage stOne provOne provNone calOpen 50 "t" "A" "c"
    rfl rfl (by decide) rfl rfl rfl rfl

/-! ### Step lemmas for `fill_date` -/

/-- A fill step for a recorded symbol skips when the slice already exists. -/
theorem fillStep_skip_exists (prov : Provider) (cal : Calendar)
    (target today : Date) (now : String) (st : St) (s : Sym) (c : Cat)
    (m : Dict) (pe pl : Date) (v : List Row)
    (hg : getSymbolCategory st s = some c)
    (hm : st.agg.cats c s = some m)
    (hpe : getDate m "earliest_date" = some pe)
    (hpl : getDate m "latest_date" = some pl)
    (hsl : st.slices c s target = some v) :
    fillStep prov cal target today now st s = (st, [], none) := by
  simp only [fillStep, hg, hm, hpe, hpl]
  split
  · rfl
  · simp [hsl]

/-- A fill step for a recorded symbol skips when the exchange is closed on
the target date. -/
theorem fillStep_skip_closed (prov : Provider) (cal : Calendar)
    (target today : Date) (now : String) (st : St) (s : Sym) (c : Cat)
    (m : Dict) (pe pl : Date)
    (hg : getSymbolCategory st s = some c)
    (hm : st.agg.cats c s = some m)
    (hpe : getDate m "earliest_date" = some pe)
    (hpl : getDate m "latest_date" = some pl)
    (hin : ¬(target < pe ∨ target > pl))
    (hns : st.slices c s target = none)
    (htr : isTradingDayForSymbol st cal s target = .ok false) :
    fillStep prov cal target today now st s = (st, [], none) := by
  simp only [fillStep, hg, hm, hpe, hpl]
  rw [if_neg hin, hns]
  simp [htr]

/-- A fill step for a recorded in-range symbol with no existing slice, an
open exchange and surviving rows fetches and writes the slice. -/
theorem fillStep_write (prov : Provider) (cal : Calendar)
    (target today : Date) (now : String) (st : St) (s : Sym) (c : Cat)
    (m : Dict) (pe pl : Date)
    (hg : getSymbolCategory st s = some c)
    (hm : st.agg.cats c s = some m)
    (hpe : getDate m "earliest_date" = some pe)
    (hpl : getDate m "latest_date" = some pl)
    (hin : ¬(target < pe ∨ target > pl))
    (hns : st.slices c s target = none)
    (htr : isTradingDayForSymbol st cal s target = .ok true)
    (hrows : (dropna (prov s target (target + 1))).isEmpty = false) :
    fillStep prov cal target today now st s =
      ({ st with slices := fun c2 s2 d2 =>
          if c2 = c ∧ s2 = s ∧ d2 = target then some (prov s target (target + 1))
          else st.slices c2 s2 d2 },
       [Ev.fetch [s] target (target + 1), Ev.writeSlice c s target], none) := by
  simp only [fillStep, hg, hm, hpe, hpl]
  rw [if_neg hin, hns]
  simp [htr, hrows]

/-- Exhaustive description of one `fill_date` step: it either delegates to a
backfill, stops with an exception, skips, fetches and skips on empty rows, or
fetches and writes the slice. -/
theorem fillStep_cases (prov : Provider) (cal : Calendar)
    (target today : Date) (now : String) (st : St) (s : Sym) :
    fillStep prov cal target today now st s =
      ((downloadAll st prov s today now).st, (downloadAll st prov s today now).evs,
        (downloadAll st prov s today now).err) ∨
    (∃ e, fillStep prov cal target today now st s = (st, [], some e)) ∨
    fillStep prov cal target today now st s = (st, [], none) ∨
    (isTradingDayForSymbol st cal s target = .ok true ∧
      fillStep prov cal target today now st s =
        (st, [Ev.fetch [s] target (target + 1)], none)) ∨
    (∃ c, getSymbolCategory st s = some c ∧
      isTradingDayForSymbol st cal s target = .ok true ∧
      fillStep prov cal target today now st s =
        ({ st with slices := fun c2 s2 d2 =>
            if c2 = c ∧ s2 = s ∧ d2 = target then some (prov s target (target + 1))
            else st.slices c2 s2 d2 },
         [Ev.fetch [s] target (target + 1), Ev.writeSlice c s target],
         none)) := by
  simp only [fillStep]
  cases hg : getSymbolCategory st s with
  | none => exact .inl rfl
  | some c =>
    simp only []
    cases hm : st.agg.cats c s with
    | none => exact .inl rfl
    | some m =>
      simp only []
      cases hpe : getDate m "earliest_date" with
      | none => exact .inr (.inl ⟨_, rfl⟩)
      | some pe =>
        cases hpl : getDate m "latest_date" with
        | none => exact .inr (.inl ⟨_, rfl⟩)
        | some pl =>
          simp only []
          split
          · exact .inr (.inr (.inl rfl))
          · split
            · exact .inr (.inr (.inl rfl))
            · cases htr : isTradingDayForSymbol st cal s target with
              | error e => exact .inr (.inl ⟨_, rfl⟩)
              | ok b =>
                cases b with
                | false => exact .inr (.inr (.inl rfl))
                | true =>
                  simp only []
                  split
                  · exact .inr (.inr (.inr (.inl ⟨by trivial, rfl⟩)))
                  · exact .inr (.inr (.inr (.inr ⟨c, by trivial, by trivial, rfl⟩)))

/-- One fill step preserves configuration, aggregate and set dir flags. -/
theorem fillStep_frame (prov : Provider) (cal : Calendar) (target today : Date)
    (now : String) (st : St) (s : Sym) :
    (fillStep prov cal target today now st s).1.categories = st.categories ∧
    (fillStep prov cal target today now st s).1.watchlist = st.watchlist ∧
    (fillStep prov cal target today now st s).1.symbolsList = st.symbolsList ∧
    (fillStep prov cal target today now st s).1.agg = st.agg ∧
    (∀ c2 s2, st.dirs c2 s2 = true →
      (fillStep prov cal target today now st s).1.dirs c2 s2 = true) := by
  rcases fillStep_cases prov cal target today now st s with
    h | ⟨e, h⟩ | h | ⟨-, h⟩ | ⟨c, -, -, h⟩ <;> rw [h]
  · obtain ⟨d1, d2, d3, d4, -, -, d7⟩ := downloadAll_frame st prov s today now
    exact ⟨d1, d2, d3, d4, d7⟩
  · exact ⟨rfl, rfl, rfl, rfl, fun _ _ h2 => h2⟩
  · exact ⟨rfl, rfl, rfl, rfl, fun _ _ h2 => h2⟩
  · exact ⟨rfl, rfl, rfl, rfl, fun _ _ h2 => h2⟩
  · exact ⟨rfl, rfl, rfl, rfl, fun _ _ h2 => h2⟩

/-- A fill step for a different symbol touches nothing of symbol `s` and
emits no event about it. -/
theorem fillStep_other (prov : Provider) (cal : Calendar) (target today : Date)
    (now : String) (st : St) (s2 s : Sym) (hne : s ≠ s2) :
    (∀ c0 d0, (fillStep prov cal target today now st s2).1.slices c0 s d0 =
      st.slices c0 s d0) ∧
    (∀ c0, (fillStep prov cal target today now st s2).1.symMeta c0 s =
      st.symMeta c0 s) ∧
    (∀ c0 d0, Ev.writeSlice c0 s d0 ∉
      (fillStep prov cal target today now st s2).2.1) ∧
    (∀ a b, Ev.fetch [s] a b ∉
      (fillStep prov cal target today now st s2).2.1) := by
  rcases fillStep_cases prov cal target today now st s2 with
    h | ⟨e, h⟩ | h | ⟨-, h⟩ | ⟨c, -, -, h⟩ <;> rw [h]
  · obtain ⟨-, -, -, -, d5, d6, -⟩ := downloadAll_frame st prov s2 today now
    refine ⟨fun c0 d0 => d6 c0 s d0 hne, fun c0 => d5 c0 s hne, ?_, ?_⟩
    · intro c0 d0 hmem
      rcases downloadAll_evs_shape st prov s2 today now _ hmem with
        ⟨w, hw⟩ | ⟨c2, d2, h2⟩ | ⟨c2, h2⟩
      · exact Ev.noConfusion hw
      · injection h2 with e1 e2 e3
        exact hne e2
      · exact Ev.noConfusion h2
    · intro a b hmem
      rcases downloadAll_evs_shape st prov s2 today now _ hmem with
        ⟨w, hw⟩ | ⟨c2, d2, h2⟩ | ⟨c2, h2⟩
      · injection hw with e1 e2 e3
        injection e1 with e4 e5
        exact hne e4
      · exact Ev.noConfusion h2
      · exact Ev.noConfusion h2
  · exact ⟨fun _ _ => rfl, fun _ => rfl, fun _ _ => List.not_mem_nil _,
      fun _ _ => List.not_mem_nil _⟩
  · exact ⟨fun _ _ => rfl, fun _ => rfl, fun _ _ => List.not_mem_nil _,
      fun _ _ => List.not_mem_nil _⟩
  · refine ⟨fun _ _ => rfl, fun _ => rfl, ?_, ?_⟩
    · intro c0 d0 hmem
      exact Ev.noConfusion (List.mem_singleton.mp hmem)
    · intro a b hmem
      injection List.mem_singleton.mp hmem with e1 e2 e3
      injection e1 with e4 e5
      exact hne e4
  · refine ⟨?_, fun _ => rfl, ?_, ?_⟩
    · intro c0 d0
      simp only []
      rw [if_neg]
      rintro ⟨-, h2, -⟩
      exact hne h2
    · intro c0 d0 hmem
      rcases List.mem_cons.mp hmem with h2 | h2
      · exact Ev.noConfusion h2
      · injection List.mem_singleton.mp h2 with e1 e2 e3
        exact hne e2
    · intro a b hmem
      rcases List.mem_cons.mp hmem with h2 | h2
      · injection h2 with e1 e2 e3
        injection e1 with e4 e5
        exact hne e4
      · exact Ev.noConfusion (List.mem_singleton.mp h2)

/-- A fill step for a symbol whose exchange is closed on the target date
issues no single-day fetch at all. -/
theorem fillStep_closed_no_fetch (prov : Provider) (cal : Calendar)
    (target today : Date) (now : String) (st : St) (s : Sym) (L : List Sym)
    (htr : isTradingDayForSymbol st cal s target = .ok false) :
    Ev.fetch L target (target + 1) ∉
      (fillStep prov cal target today now st s).2.1 := by
  rcases fillStep_cases prov cal target today now st s with
    h | ⟨e, h⟩ | h | ⟨htr2, h⟩ | ⟨c, -, htr2, h⟩
  · rw [h]
    exact downloadAll_no_day_fetch st prov s today now L target
  · rw [h]
    exact List.not_mem_nil _
  · rw [h]
    exact List.not_mem_nil _
  · rw [htr] at htr2
    injection htr2 with htr3
    exact Bool.noConfusion htr3
  · rw [htr] at htr2
    injection htr2 with htr3
    exact Bool.noConfusion htr3

/-- Any single-day fetch a fill step emits carries exactly its own symbol. -/
theorem fillStep_day_fetch (prov : Provider) (cal : Calendar)
    (target today : Date) (now : String) (st : St) (s2 : Sym) (L : List Sym)
    (hmem : Ev.fetch L target (target + 1) ∈
      (fillStep prov cal target today now st s2).2.1) :
    L = [s2] := by
  rcases fillStep_cases prov cal target today now st s2 with
    h | ⟨e, h⟩ | h | ⟨-, h⟩ | ⟨c, -, -, h⟩
  · rw [h] at hmem
    exact absurd hmem (downloadAll_no_day_fetch st prov s2 today now L target)
  · rw [h] at hmem
    exact absurd hmem (List.not_mem_nil _)
  · rw [h] at hmem
    exact absurd hmem (List.not_mem_nil _)
  · rw [h] at hmem
    injection List.mem_singleton.mp hmem with e1 e2 e3
  · rw [h] at hmem
    rcases List.mem_cons.mp hmem with h2 | h2
    · injection h2 with e1 e2 e3
    · exact absurd (List.mem_singleton.mp h2) (fun h3 => Ev.noConfusion h3)

/-- The fill loop preserves configuration, aggregate and set dir flags. -/
theorem fillLoop_frame (prov : Provider) (cal : Calendar) (target today : Date)
    (now : String) :
    ∀ (l : List Sym) (st : St),
    (fillLoop prov cal target today now st l).1.categories = st.categories ∧
    (fillLoop prov cal target today now st l).1.watchlist = st.watchlist ∧
    (fillLoop prov cal target today now st l).1.symbolsList = st.symbolsList ∧
    (fillLoop prov cal target today now st l).1.agg = st.agg ∧
    (∀ c2 s2, st.dirs c2 s2 = true →
      (fillLoop prov cal target today now st l).1.dirs c2 s2 = true) := by
  intro l
  induction l with
  | nil => exact fun st => ⟨rfl, rfl, rfl, rfl, fun _ _ h => h⟩
  | cons s rest ih =>
    intro st
    obtain ⟨f1, f2, f3, f4, f5⟩ := fillStep_frame prov cal target today now st s
    simp only [fillLoop]
    cases herr : (fillStep prov cal target today now st s).2.2 with
    | some e => exact ⟨f1, f2, f3, f4, f5⟩
    | none =>
      obtain ⟨i1, i2, i3, i4, i5⟩ :=
        ih ((fillStep prov cal target today now st s).1)
      exact ⟨i1.trans f1, i2.trans f2, i3.trans f3, i4.trans f4,
        fun c2 s2 h => i5 c2 s2 (f5 c2 s2 h)⟩

/-- No single-day fetch in the whole fill loop names a symbol whose exchange
is closed on the target date. -/
theorem fillLoop_no_closed_fetch (prov : Provider) (cal : Calendar)
    (target today : Date) (now : String) (s : Sym) :
    ∀ (l : List Sym) (st : St) (L : List Sym),
    isTradingDayForSymbol st cal s target = .ok false →
    Ev.fetch L target (target + 1) ∈
      (fillLoop prov cal target today now st l).2.1 →
    s ∉ L := by
  intro l
  induction l with
  | nil =>
    intro st L htr hmem
    exact absurd hmem (List.not_mem_nil _)
  | cons s2 rest ih =>
    intro st L htr hmem
    simp only [fillLoop] at hmem
    have hstep : Ev.fetch L target (target + 1) ∈
        (fillStep prov cal target today now st s2).2.1 → s ∉ L := by
      intro hm2
      by_cases hss : s2 = s
      · subst hss
        exact absurd hm2
          (fillStep_closed_no_fetch prov cal target today now st s2 L htr)
      · rw [fillStep_day_fetch prov cal target today now st s2 L hm2]
        intro hmem3
        exact hss (List.mem_singleton.mp hmem3).symm
    cases herr : (fillStep prov cal target today now st s2).2.2 with
    | some e =>
      try rw [herr] at hmem
      try simp only [] at hmem
      exact hstep hmem
    | none =>
      try rw [herr] at hmem
      try simp only [] at hmem
      rcases List.mem_append.mp hmem with h2 | h2
      · exact hstep h2
      · obtain ⟨f1, f2, -, -, -⟩ :=
          fillStep_frame prov cal target today now st s2
        have htr2 : isTradingDayForSymbol
            ((fillStep prov cal target today now st s2).1) cal s target =
            .ok false := by
          rw [isTradingDayForSymbol_congr st _ cal s target f1 f2]
          exact htr
        exact ih ((fillStep prov cal target today now st s2).1) L htr2 h2

/-- While the slice for (c, s, target) already exists and `s` has a recorded
coverage entry with well-formed dates, the fill loop neither fetches `s` for
the target date nor writes that slice, and preserves it, `s`'s record and its
dir flag. -/
theorem fillLoop_frame_key (prov : Provider) (cal : Calendar)
    (target today : Date) (now : String) (s : Sym) (c : Cat) :
    ∀ (l : List Sym) (st : St) (m : Dict) (pe pl : Date) (v : List Row),
    getSymbolCategory st s = some c →
    st.agg.cats c s = some m →
    getDate m "earliest_date" = some pe →
    getDate m "latest_date" = some pl →
    st.slices c s target = some v →
    (fillLoop prov cal target today now st l).1.slices c s target = some v ∧
    Ev.writeSlice c s target ∉ (fillLoop prov cal target today now st l).2.1 ∧
    Ev.fetch [s] target (target + 1) ∉
      (fillLoop prov cal target today now st l).2.1 ∧
    (fillLoop prov cal target today now st l).1.symMeta c s = st.symMeta c s ∧
    (st.dirs c s = true →
      (fillLoop prov cal target today now st l).1.dirs c s = true) := by
  intro l
  induction l with
  | nil =>
    intro st m pe pl v hg hm hpe hpl hsl
    exact ⟨hsl, List.not_mem_nil _, List.not_mem_nil _, rfl, fun h => h⟩
  | cons s2 rest ih =>
    intro st m pe pl v hg hm hpe hpl hsl
    by_cases hss : s2 = s
    · subst hss
      have hw := fillStep_skip_exists prov cal target today now st s2 c m pe pl
        v hg hm hpe hpl hsl
      simp only [fillLoop, hw]
      obtain ⟨i1, i2, i3, i4, i5⟩ := ih st m pe pl v hg hm hpe hpl hsl
      refine ⟨i1, ?_, ?_, i4, i5⟩
      · intro hmem
        rcases List.mem_append.mp hmem with h2 | h2
        · exact absurd h2 (List.not_mem_nil _)
        · exact i2 h2
      · intro hmem
        rcases List.mem_append.mp hmem with h2 | h2
        · exact absurd h2 (List.not_mem_nil _)
        · exact i3 h2
    · obtain ⟨o1, o2, o3, o4⟩ := fillStep_other prov cal target today now st s2
        s (fun h => hss h.symm)
      obtain ⟨f1, f2, f3, f4, f5⟩ :=
        fillStep_frame prov cal target today now st s2
      simp only [fillLoop]
      cases herr : (fillStep prov cal target today now st s2).2.2 with
      | some e =>
        exact ⟨(o1 c target).trans hsl, o3 c target, o4 target (target + 1),
          o2 c, f5 c s⟩
      | none =>
        have hg2 : getSymbolCategory
            ((fillStep prov cal target today now st s2).1) s = some c := by
          rw [getSymbolCategory_congr st _ s f1 f2]
          exact hg
        have hm2 : ((fillStep prov cal target today now st s2).1).agg.cats c s =
            some m := by
          rw [f4]
          exact hm
        have hsl2 : ((fillStep prov cal target today now st s2).1).slices c s
            target = some v := (o1 c target).trans hsl
        obtain ⟨i1, i2, i3, i4, i5⟩ :=
          ih ((fillStep prov cal target today now st s2).1) m pe pl v hg2 hm2
            hpe hpl hsl2
        refine ⟨i1, ?_, ?_, i4.trans (o2 c), fun h => i5 (f5 c s h)⟩
        · intro hmem
          rcases List.mem_append.mp hmem with h2 | h2
          · exact o3 c target h2
          · exact i2 h2
        · intro hmem
          rcases List.mem_append.mp hmem with h2 | h2
          · exact o4 target (target + 1) h2
          · exact i3 h2

/-- On an error-free fill pass, a recorded in-range symbol with no prior
slice, an open exchange and surviving rows gets exactly one slice write for
the target date, its fresh slice persisted, and its record untouched. -/
theorem fillLoop_write_once (prov : Provider) (cal : Calendar)
    (target today : Date) (now : String) (s : Sym) (c : Cat) :
    ∀ (l : List Sym) (st : St) (m : Dict) (pe pl : Date),
    getSymbolCategory st s = some c →
    st.agg.cats c s = some m →
    getDate m "earliest_date" = some pe →
    getDate m "latest_date" = some pl →
    ¬(target < pe ∨ target > pl) →
    st.slices c s target = none →
    isTradingDayForSymbol st cal s target = .ok true →
    (dropna (prov s target (target + 1))).isEmpty = false →
    s ∈ l →
    (fillLoop prov cal target today now st l).2.2 = none →
    countW (fillLoop prov cal target today now st l).2.1 c s target = 1 ∧
    (fillLoop prov cal target today now st l).1.slices c s target =
      some (prov s target (target + 1)) ∧
    (fillLoop prov cal target today now st l).1.symMeta c s = st.symMeta c s ∧
    (st.dirs c s = true →
      (fillLoop prov cal target today now st l).1.dirs c s = true) := by
  intro l
  induction l with
  | nil =>
    intro st m pe pl _ _ _ _ _ _ _ _ hmem _
    exact absurd hmem (List.not_mem_nil s)
  | cons s2 rest ih =>
    intro st m pe pl hg hm hpe hpl hin hns htr hrows hmem herr
    by_cases hss : s2 = s
    · subst hss
      have hw := fillStep_write prov cal target today now st s2 c m pe pl hg hm
        hpe hpl hin hns htr hrows
      have h4 : (fillStep prov cal target today now st s2).2.2 = none := by
        rw [hw]
      have h3 : (fillStep prov cal target today now st s2).2.1 =
          [Ev.fetch [s2] target (target + 1), Ev.writeSlice c s2 target] := by
        rw [hw]
      have h1 : (fillStep prov cal target today now st s2).1.slices c s2
          target = some (prov s2 target (target + 1)) := by
        rw [hw]
        simp
      have h5 : (fillStep prov cal target today now st s2).1.symMeta c s2 =
          st.symMeta c s2 := by rw [hw]
      have h6 : (fillStep prov cal target today now st s2).1.dirs = st.dirs := by
        rw [hw]
      obtain ⟨f1, f2, f3, f4, -⟩ :=
        fillStep_frame prov cal target today now st s2
      simp only [fillLoop, h4] at herr ⊢
      have hg2 : getSymbolCategory
          ((fillStep prov cal target today now st s2).1) s2 = some c := by
        rw [getSymbolCategory_congr st _ s2 f1 f2]
        exact hg
      have hm2 : ((fillStep prov cal target today now st s2).1).agg.cats c s2 =
          some m := by
        rw [f4]
        exact hm
      obtain ⟨i1, i2, i3, i4, i5⟩ := fillLoop_frame_key prov cal target today
        now s2 c rest ((fillStep prov cal target today now st s2).1) m pe pl
        (prov s2 target (target + 1)) hg2 hm2 hpe hpl h1
      refine ⟨?_, i1, i4.trans h5, ?_⟩
      · rw [countW, h3, List.count_append]
        rw [show (fillLoop prov cal target today now
            ((fillStep prov cal target today now st s2).1) rest).2.1.count
            (Ev.writeSlice c s2 target) = 0 from List.count_eq_zero.mpr i2]
        simp [List.count_cons]
      · intro h
        exact i5 (by rw [h6]; exact h)
    · obtain ⟨o1, o2, o3, o4⟩ := fillStep_other prov cal target today now st s2
        s (fun h => hss h.symm)
      obtain ⟨f1, f2, f3, f4, f5⟩ :=
        fillStep_frame prov cal target today now st s2
      have hmem2 : s ∈ rest := by
        rcases List.mem_cons.mp hmem with h | h
        · exact absurd h.symm hss
        · exact h
      simp only [fillLoop] at herr ⊢
      cases herr2 : (fillStep prov cal target today now st s2).2.2 with
      | some e =>
        try rw [herr2] at herr
        simp at herr
      | none =>
        try rw [herr2] at herr
        try simp only [] at herr ⊢
        have hg2 : getSymbolCategory
            ((fillStep prov cal target today now st s2).1) s = some c := by
          rw [getSymbolCategory_congr st _ s f1 f2]
          exact hg
        have hm2 : ((fillStep prov cal target today now st s2).1).agg.cats c s =
            some m := by
          rw [f4]
          exact hm
        have hns2 : ((fillStep prov cal target today now st s2).1).slices c s
            target = none := (o1 c target).trans hns
        have htr2 : isTradingDayForSymbol
            ((fillStep prov cal target today now st s2).1) cal s target =
            .ok true := by
          rw [isTradingDayForSymbol_congr st _ cal s target f1 f2]
          exact htr
        obtain ⟨i1, i2, i3, i4⟩ := ih ((fillStep prov cal target today now st
          s2).1) m pe pl hg2 hm2 hpe hpl hin hns2 htr2 hrows hmem2 herr
        refine ⟨?_, i2, i3.trans (o2 c), fun h => i4 (f5 c s h)⟩
        rw [countW, List.count_append]
        rw [show (fillStep prov cal target today now st s2).2.1.count
            (Ev.writeSlice c s target) = 0 from
          List.count_eq_zero.mpr (o3 c target)]
        rw [Nat.zero_add]
        exact i1

/-! ### C7 -/

/-- C7 (confirmed): for a watchlist symbol whose exchange the calendar marks
closed on a date, no single-day provider fetch covering that date includes
the symbol: in `roll` run with that date as the target the symbol is dropped
by the trading-day filter before the batched download, and in `fill_date`
the per-symbol download is skipped. -/
theorem calendar_gating (st : St) (prov : Provider) (cal : Calendar) (s : Sym)
    (d today : Date) (now : String) (c : Cat) (attrs : Dict) (ex : String)
    (L1 L2 : List Sym)
    (hc : getSymbolCategory st s = some c)
    (hattrs : st.watchlist c s = some attrs)
    (hex : attrs "exchange" = some (.str ex))
    (hexne : ¬ex = "")
    (hcal : cal ex d = false)
    (hm1 : Ev.fetch L1 d (d + 1) ∈ (roll st prov cal (d + 1) now).evs)
    (hm2 : Ev.fetch L2 d (d + 1) ∈ (fillDate st prov cal d today now).evs) :
    s ∉ L1 ∧ s ∉ L2 := by
  have htrF : isTradingDayForSymbol st cal s d = .ok false := by
    simp only [isTradingDayForSymbol, hc, hattrs, hex]
    rw [if_neg hexne, hcal]
  constructor
  · simp only [roll] at hm1
    cases he1 : (rollClassify prov (d + 1) now st st.symbolsList).2.2.1 with
    | some e =>
      try rw [he1] at hm1
      try simp only [] at hm1
      exact absurd hm1
        (rollClassify_no_day_fetch prov (d + 1) now L1 d st.symbolsList st)
    | none =>
      try rw [he1] at hm1
      try simp only [] at hm1
      by_cases hemp :
          (rollClassify prov (d + 1) now st st.symbolsList).2.2.2.isEmpty
      · rw [if_pos hemp] at hm1
        try simp only [] at hm1
        exact absurd hm1
          (rollClassify_no_day_fetch prov (d + 1) now L1 d st.symbolsList st)
      · rw [if_neg hemp] at hm1
        try simp only [] at hm1
        cases htf : tradingFilter
            (rollClassify prov (d + 1) now st st.symbolsList).1 cal (d + 1 - 1)
            (rollClassify prov (d + 1) now st st.symbolsList).2.2.2 with
        | error e =>
          try rw [htf] at hm1
          try simp only [] at hm1
          exact absurd hm1
            (rollClassify_no_day_fetch prov (d + 1) now L1 d st.symbolsList st)
        | ok trading =>
          try rw [htf] at hm1
          try simp only [] at hm1
          cases he2 : (rollSave prov (d + 1 - 1) now
              (rollClassify prov (d + 1) now st st.symbolsList).1
              trading).2.2 with
          | some e =>
            try rw [he2] at hm1
            try simp only [] at hm1
            rcases List.mem_append.mp hm1 with h2 | h2
            · rcases List.mem_append.mp h2 with h3 | h3
              · exact absurd h3 (rollClassify_no_day_fetch prov (d + 1) now L1
                  d st.symbolsList st)
              · have heq := List.mem_singleton.mp h3
                injection heq with e1 e2 e3
                subst e1
                intro hmemL
                have htrT := tradingFilter_sound
                  (rollClassify prov (d + 1) now st st.symbolsList).1 cal
                  (d + 1 - 1)
                  (rollClassify prov (d + 1) now st st.symbolsList).2.2.2
                  L1 s htf hmemL
                obtain ⟨r1, r2, -, -⟩ :=
                  rollClassify_frame prov (d + 1) now st.symbolsList st
                rw [isTradingDayForSymbol_congr st _ cal s (d + 1 - 1) r1 r2]
                  at htrT
                rw [show d + 1 - 1 = d from add_sub_cancel_right d 1] at htrT
                rw [htrF] at htrT
                exact Bool.noConfusion (Except.ok.inj htrT)
            · exact absurd h2 (rollSave_no_fetch prov (d + 1 - 1) now trading
                (rollClassify prov (d + 1) now st st.symbolsList).1 L1 d
                (d + 1))
          | none =>
            try rw [he2] at hm1
            try simp only [] at hm1
            rcases List.mem_append.mp hm1 with h2 | h2
            · rcases List.mem_append.mp h2 with h3 | h3
              · exact absurd h3 (rollClassify_no_day_fetch prov (d + 1) now L1
                  d st.symbolsList st)
              · have heq := List.mem_singleton.mp h3
                injection heq with e1 e2 e3
                subst e1
                intro hmemL
                have htrT := tradingFilter_sound
                  (rollClassify prov (d + 1) now st st.symbolsList).1 cal
                  (d + 1 - 1)
                  (rollClassify prov (d + 1) now st st.symbolsList).2.2.2
                  L1 s htf hmemL
                obtain ⟨r1, r2, -, -⟩ :=
                  rollClassify_frame prov (d + 1) now st.symbolsList st
                rw [isTradingDayForSymbol_congr st _ cal s (d + 1 - 1) r1 r2]
                  at htrT
                rw [show d + 1 - 1 = d from add_sub_cancel_right d 1] at htrT
                rw [htrF] at htrT
                exact Bool.noConfusion (Except.ok.inj htrT)
            · exact absurd h2 (rollSave_no_fetch prov (d + 1 - 1) now trading
                (rollClassify prov (d + 1) now st st.symbolsList).1 L1 d
                (d + 1))
  · have hevs : (fillDate st prov cal d today now).evs =
        (fillLoop prov cal d today now st st.symbolsList).2.1 := by
      simp only [fillDate]
      cases (fillLoop prov cal d today now st st.symbolsList).2.2 <;> rfl
    rw [hevs] at hm2
    exact fillLoop_no_closed_fetch prov cal d today now s st.symbolsList st L2
      htrF hm2

/-- C7 witness: with `A` listed on closed exchange `X` and `B` on open
exchange `Y`, both the roll batch fetch and the fill-date fetch for day 49
hit only `B`, and `calendar_gating` certifies `A` is absent from both. -/
theorem calendar_gating_witness :
    (getSymbolCategory stTwoEx "A" = some "c" ∧
     stTwoEx.watchlist "c" "A" = some exAttrsX ∧
     exAttrsX "exchange" = some (.str "X") ∧
     ¬(("X" : String)) = "" ∧
     calOnlyY "X" 49 = false ∧
     Ev.fetch ["B"] 49 (49 + 1) ∈
       (roll stTwoEx provOne calOnlyY (49 + 1) "t").evs ∧
     Ev.fetch ["B"] 49 (49 + 1) ∈
       (fillDate stTwoEx provOne calOnlyY 49 200 "t").evs) ∧
    "A" ∉ ["B"] ∧ "A" ∉ ["B"] := by
  refine ⟨⟨by decide, rfl, rfl, by decide, by decide,
    by decide, by decide⟩, ?_⟩
  exact calendar_gating stTwoEx provOne calOnlyY "A" 49 200 "t" "c" exAttrsX
    "X" ["B"] ["B"] (by decide) rfl rfl (by decide)
    (by decide) (by decide) (by decide)

/-! ### C6 -/

/-- On a state whose aggregate records the symbol with coverage bounds and
which already holds a slice for the target date, `fill_date` leaves that
slice untouched, writes nothing for the key and issues no fetch for the
symbol. -/
theorem fillDate_existing_slice_noop (st2 : St) (prov : Provider)
    (cal : Calendar) (target today : Date) (now2 : String) (s : Sym) (c : Cat)
    (m : Dict) (pe pl : Date) (v : List Row)
    (hc : getSymbolCategory st2 s = some c)
    (hm : st2.agg.cats c s = some m)
    (hpe : getDate m "earliest_date" = some pe)
    (hpl : getDate m "latest_date" = some pl)
    (hsl : st2.slices c s target = some v) :
    countW (fillDate st2 prov cal target today now2).evs c s target = 0 ∧
    (fillDate st2 prov cal target today now2).st.slices c s target = some v ∧
    Ev.fetch [s] target (target + 1) ∉
      (fillDate st2 prov cal target today now2).evs := by
  obtain ⟨k1, k2, k3, k4, k5⟩ := fillLoop_frame_key prov cal target today now2
    s c st2.symbolsList st2 m pe pl v hc hm hpe hpl hsl
  have hevs : (fillDate st2 prov cal target today now2).evs =
      (fillLoop prov cal target today now2 st2 st2.symbolsList).2.1 := by
    simp only [fillDate]
    cases (fillLoop prov cal target today now2 st2 st2.symbolsList).2.2 <;> rfl
  refine ⟨?_, ?_, ?_⟩
  · rw [hevs, countW, List.count_eq_zero]
    exact k2
  · simp only [fillDate]
    cases (fillLoop prov cal target today now2 st2 st2.symbolsList).2.2 with
    | some e =>
      try simp only []
      exact k1
    | none =>
      try simp only []
      exact k1
  · rw [hevs]
    exact k3

/-- C6 (confirmed): `fill_date` is idempotent per (symbol, date).  For a
recorded symbol with the target inside its coverage bounds and no stored
slice yet, a trading day and surviving rows: the first run writes the slice
exactly once and persists it; a second run for the same date performs zero
slice writes for the key, leaves the stored slice unchanged (no overwrite),
and issues no provider fetch for the symbol. -/
theorem fillDate_idempotent (st : St) (prov : Provider) (cal : Calendar)
    (target today : Date) (now now2 : String) (s : Sym) (c : Cat) (m : Dict)
    (pe pl : Date)
    (hcat : c ∈ st.categories)
    (hc : getSymbolCategory st s = some c)
    (hm : st.agg.cats c s = some m)
    (hdisk : st.symMeta c s = some m)
    (hdir : st.dirs c s = true)
    (hpe : getDate m "earliest_date" = some pe)
    (hpl : getDate m "latest_date" = some pl)
    (hin : ¬(target < pe ∨ target > pl))
    (hns : st.slices c s target = none)
    (htr : isTradingDayForSymbol st cal s target = .ok true)
    (hrows : (dropna (prov s target (target + 1))).isEmpty = false)
    (hmem : s ∈ st.symbolsList)
    (ho : (fillDate st prov cal target today now).err = none) :
    countW (fillDate st prov cal target today now).evs c s target = 1 ∧
    (fillDate st prov cal target today now).st.slices c s target =
      some (prov s target (target + 1)) ∧
    countW (fillDate (fillDate st prov cal target today now).st prov cal
      target today now2).evs c s target = 0 ∧
    (fillDate (fillDate st prov cal target today now).st prov cal target
      today now2).st.slices c s target = some (prov s target (target + 1)) ∧
    Ev.fetch [s] target (target + 1) ∉
      (fillDate (fillDate st prov cal target today now).st prov cal target
        today now2).evs := by
  have hloop : (fillLoop prov cal target today now st st.symbolsList).2.2 =
      none := by
    simp only [fillDate] at ho
    cases h2 : (fillLoop prov cal target today now st st.symbolsList).2.2 with
    | none => rfl
    | some e =>
      try rw [h2] at ho
      try simp only [] at ho
      exact Option.noConfusion ho
  obtain ⟨w1, w2, w3, w4⟩ := fillLoop_write_once prov cal target today now s c
    st.symbolsList st m pe pl hc hm hpe hpl hin hns htr hrows hmem hloop
  have hevs1 : (fillDate st prov cal target today now).evs =
      (fillLoop prov cal target today now st st.symbolsList).2.1 := by
    simp only [fillDate]
    cases (fillLoop prov cal target today now st st.symbolsList).2.2 <;> rfl
  have hst1 : (fillDate st prov cal target today now).st =
      updateStorageMeta
        (fillLoop prov cal target today now st st.symbolsList).1 now := by
    simp only [fillDate, hloop]
  obtain ⟨l1, l2, l3, l4, l5⟩ := fillLoop_frame prov cal target today now
    st.symbolsList st
  obtain ⟨u1, u2, u3, u4, u5, u6⟩ := updateStorageMeta_frame
    (fillLoop prov cal target today now st st.symbolsList).1 now
  have hc2 : getSymbolCategory (updateStorageMeta
      (fillLoop prov cal target today now st st.symbolsList).1 now) s =
      some c := by
    rw [getSymbolCategory_congr st _ s (u1.trans l1) (u2.trans l2)]
    exact hc
  have hm2 : (updateStorageMeta
      (fillLoop prov cal target today now st st.symbolsList).1 now).agg.cats
      c s = some m := by
    simp only [updateStorageMeta, saveStorageMeta]
    exact scan_cats_persisted _ c s m
      (show c ∈ (fillLoop prov cal target today now st
        st.symbolsList).1.categories by rw [l1]; exact hcat)
      (w4 hdir) (w3.trans hdisk)
  have hsl2 : (updateStorageMeta
      (fillLoop prov cal target today now st st.symbolsList).1 now).slices
      c s target = some (prov s target (target + 1)) := by
    rw [u5]
    exact w2
  refine ⟨?_, ?_, ?_, ?_, ?_⟩
  · rw [hevs1]
    exact w1
  · rw [hst1, u5]
    exact w2
  · rw [hst1]
    exact (fillDate_existing_slice_noop _ prov cal target today now2 s c m pe
      pl _ hc2 hm2 hpe hpl hsl2).1
  · rw [hst1]
    exact (fillDate_existing_slice_noop _ prov cal target today now2 s c m pe
      pl _ hc2 hm2 hpe hpl hsl2).2.1
  · rw [hst1]
    exact (fillDate_existing_slice_noop _ prov cal target today now2 s c m pe
      pl _ hc2 hm2 hpe hpl hsl2).2.2

/-- C6 witness: filling day 50 for the covered symbol `A` writes its slice
once; refilling writes nothing, keeps the slice, and fetches nothing. -/
theorem fillDate_idempotent_witness :
    (("c" : Cat) ∈ stOne.categories ∧
     getSymbolCategory stOne "A" = some "c" ∧
     stOne.agg.cats "c" "A" = some exRec ∧
     stOne.symMeta "c" "A" = some exRec ∧
     stOne.dirs "c" "A" = true ∧
     getDate exRec "earliest_date" = some 0 ∧
     getDate exRec "latest_date" = some 100 ∧
     ¬((50 : Date) < 0 ∨ (50 : Date) > 100) ∧
     stOne.slices "c" "A" 50 = none ∧
     isTradingDayForSymbol stOne calOpen "A" 50 = .ok true ∧
     (dropna (provOne "A" 50 (50 + 1))).isEmpty = false ∧
     "A" ∈ stOne.symbolsList ∧
     (fillDate stOne provOne calOpen 50 200 "t").err = none) ∧
    countW (fillDate stOne provOne calOpen 50 200 "t").evs "c" "A" 50 = 1 ∧
    (fillDate stOne provOne calOpen 50 200 "t").st.slices "c" "A" 50 =
      some (provOne "A" 50 (50 + 1)) ∧
    countW (fillDate (fillDate stOne provOne calOpen 50 200 "t").st provOne
      calOpen 50 200 "t2").evs "c" "A" 50 = 0 ∧
    (fillDate (fillDate stOne provOne calOpen 50 200 "t").st provOne calOpen
      50 200 "t2").st.slices "c" "A" 50 = some (provOne "A" 50 (50 + 1)) ∧
    Ev.fetch ["A"] 50 (50 + 1) ∉
      (fillDate (fillDate stOne provOne calOpen 50 200 "t").st provOne calOpen
        50 200 "t2").evs := by
  refine ⟨⟨by decide, by decide, rfl, rfl, by decide, by decide, by decide,
    by decide, rfl, rfl, by decide, by decide, by decide⟩, ?_⟩
  exact fillDate_idempotent stOne provOne calOpen 50 200 "t" "t2" "A" "c"
    exRec 0 100 (by decide) (by decide) rfl rfl (by decide) (by decide)
    (by decide) (by decide) rfl rfl (by decide) (by decide)
    (by decide)

end Snowball
